import Mathlib

/-!
# folly executors: `PriorityLifoSemMPMCQueue` and `ThreadIdWorkerProvider`

A shallow embedding of

* `folly/executors/task_queue/PriorityLifoSemMPMCQueue.h` (the priority queue built
  from one `MPMCQueue` per level and one `LifoSem`), and
* `folly/executors/QueueObserver.cpp` (the worker registry with its exit gate),

followed by the properties established about them.

Conventions.  C++ `int` arithmetic is done in `Int` (all values stay far inside the
32-bit range), `size_t` values are reduced modulo `2 ^ 64`, `uint8_t` values modulo
`2 ^ 8`, and `int8_t` values wrap to `[-128, 127]`.  The queue is run sequentially:
a call that would suspend for ever (nobody else can make progress) is reported by an
explicit `blocked` outcome.
-/

namespace folly

/-! ## Machine integers -/

/-- A value of the C++ type `int8_t`: an integer in `[-128, 127]`. -/
structure int8_t where
  val : Int
  lo : -128 ≤ val
  hi : val ≤ 127

/-- Conversion of an `int` to `int8_t` (two's complement wraparound). -/
def wrapInt8 (x : Int) : Int := (x + 128) % 256 - 128

/-- Conversion of a `size_t` to `uint8_t`. -/
def toUInt8 (n : Nat) : Nat := n % 256

/-- Conversion of an `int` to `size_t`. -/
def toSizeT (x : Int) : Nat := (x % 18446744073709551616).toNat

/-- Addition on `size_t`. -/
def addSizeT (a b : Nat) : Nat := (a + b) % 18446744073709551616

/-- Modelled from the spec: `folly::Executor::LO_PRI` (declared in `folly/Executor.h`), the
least `int8_t`, -128. -/
def LO_PRI : int8_t := ⟨-128, by decide, by decide⟩

/-- Modelled from the spec: `folly::Executor::MID_PRI` (declared in `folly/Executor.h`), the
default priority 0 of an enqueue. -/
def MID_PRI : int8_t := ⟨0, by decide, by decide⟩

/-- Modelled from the spec: `folly::Executor::HI_PRI` (declared in `folly/Executor.h`), the
greatest `int8_t`, 127. -/
def HI_PRI : int8_t := ⟨127, by decide, by decide⟩

/-! ## External primitives -/

/-- Modelled from the spec: `folly::MPMCQueue<T>` (`folly/MPMCQueue.h`), the bounded bucket,
"a fixed-capacity FIFO supporting non-blocking/blocking push and pop"; `items` lists the
pending elements, oldest first. -/
structure MPMCQueue (T : Type) where
  capacity : Nat
  items : List T
  deriving DecidableEq, Repr

namespace MPMCQueue

variable {T : Type}

/-- Modelled from the spec: the constructor `MPMCQueue(capacity)` of the missing
`folly/MPMCQueue.h`, an empty bucket of the given capacity. -/
def mk0 (capacity : Nat) : MPMCQueue T := ⟨capacity, []⟩

/-- Modelled from the spec: `MPMCQueue::writeIfNotFull`, the non-blocking push of the
bounded bucket; it reports `false` and changes nothing when the bucket is at capacity. -/
def writeIfNotFull (q : MPMCQueue T) (item : T) : Bool × MPMCQueue T :=
  if q.items.length < q.capacity then (true, { q with items := q.items ++ [item] })
  else (false, q)

/-- Modelled from the spec: `MPMCQueue::blockingWrite`, the blocking push of the bounded
bucket; `none` stands for a call that never returns (bucket at capacity, nobody to pop). -/
def blockingWrite (q : MPMCQueue T) (item : T) : Option (MPMCQueue T) :=
  if q.items.length < q.capacity then some { q with items := q.items ++ [item] }
  else none

/-- Modelled from the spec: `MPMCQueue::readIfNotEmpty`, the non-blocking pop of the
bounded bucket; `none` is the `false` return, which leaves the out-parameter alone. -/
def readIfNotEmpty (q : MPMCQueue T) : Option T × MPMCQueue T :=
  match q.items with
  | [] => (none, q)
  | x :: rest => (some x, { q with items := rest })

/-- Modelled from the spec: `MPMCQueue::size`, the number of pending elements. -/
def size (q : MPMCQueue T) : Nat := q.items.length

end MPMCQueue

/-- Modelled from the spec: `folly::LifoSem` (`folly/synchronization/LifoSem.h`), the
counting wait primitive, "a semaphore-like object that blocks waiters until its count is
positive, decremented by a successful wait". -/
structure LifoSem where
  value : Nat
  deriving DecidableEq, Repr

namespace LifoSem

/-- Modelled from the spec: `LifoSem::post`; the count goes up by one, and the result says
whether a waiter was woken (there is none in a sequential run). -/
def post (s : LifoSem) : Bool × LifoSem := (false, ⟨s.value + 1⟩)

/-- Modelled from the spec: `LifoSem::wait`; `none` stands for a wait that never returns
(count zero, nobody to post). -/
def wait (s : LifoSem) : Option LifoSem :=
  match s.value with
  | 0 => none
  | n + 1 => some ⟨n⟩

/-- Modelled from the spec: `LifoSem::try_wait_for`; succeeds (decrementing) iff the count
is positive and otherwise times out. -/
def try_wait_for (s : LifoSem) : Bool × LifoSem :=
  match s.value with
  | 0 => (false, s)
  | n + 1 => (true, ⟨n⟩)

end LifoSem

/-! ## `PriorityLifoSemMPMCQueue` -/

/-- The template parameter `kBehavior`. -/
inductive QueueBehaviorIfFull where
  | THROW
  | BLOCK
  deriving DecidableEq, Repr

/-- The data members `sem_` and `queues_`. -/
structure PriorityLifoSemMPMCQueue (T : Type) where
  sem_ : LifoSem
  queues_ : List (MPMCQueue T)
  deriving DecidableEq, Repr

namespace PriorityLifoSemMPMCQueue

variable {T : Type}

/-- `uint8_t getNumPriorities() { return queues_.size(); }`. -/
def getNumPriorities (s : PriorityLifoSemMPMCQueue T) : Nat := toUInt8 s.queues_.length

/-- The index computed at the head of `addWithPriority`, as written there:
`int mid = getNumPriorities() / 2;`
`size_t queue = priority < 0 ? std::max(0, mid + priority)`
`                            : std::min(getNumPriorities() - 1, mid + priority);` -/
def queueIndex (numPriorities : Nat) (priority : int8_t) : Nat :=
  let mid : Int := (numPriorities : Int) / 2
  toSizeT (if priority.val < 0 then max 0 (mid + priority.val)
           else min ((numPriorities : Int) - 1) (mid + priority.val))

/-- How a call of `addWithPriority` ends. -/
inductive AddResult where
  /-- Normal return, with the value of `sem_.post()`. -/
  | added (woke : Bool)
  /-- `QueueFullException` was thrown. -/
  | queueFull
  /-- `CHECK_LT(queue, queues_.size())` aborted. -/
  | checkFailed
  /-- `blockingWrite` never returns. -/
  | blocked
  deriving DecidableEq, Repr

/-- `addWithPriority(T item, int8_t priority)`, returning the outcome and the state left
behind. -/
def addWithPriority (kBehavior : QueueBehaviorIfFull) (s : PriorityLifoSemMPMCQueue T)
    (item : T) (priority : int8_t) : AddResult × PriorityLifoSemMPMCQueue T :=
  let queue := queueIndex s.getNumPriorities priority
  if h : queue < s.queues_.length then
    match kBehavior with
    | .THROW =>
      match s.queues_[queue].writeIfNotFull item with
      | (false, q) => (.queueFull, { s with queues_ := s.queues_.set queue q })
      | (true, q) =>
        let r := s.sem_.post
        (.added r.1, ⟨r.2, s.queues_.set queue q⟩)
    | .BLOCK =>
      match s.queues_[queue].blockingWrite item with
      | none => (.blocked, s)
      | some q =>
        let r := s.sem_.post
        (.added r.1, ⟨r.2, s.queues_.set queue q⟩)
  else (.checkFailed, s)

/-- `add(T item)`: "Add at medium priority by default". -/
def add (kBehavior : QueueBehaviorIfFull) (s : PriorityLifoSemMPMCQueue T) (item : T) :
    AddResult × PriorityLifoSemMPMCQueue T :=
  addWithPriority kBehavior s item MID_PRI

/-- The loop of `nonBlockingTake`, from `queues_.rbegin()` towards `queues_.rend()`: `k` is
the number of buckets not yet visited, so the next one visited has index `k - 1`. -/
def scanFrom : Nat → List (MPMCQueue T) → Option T × List (MPMCQueue T)
  | 0, qs => (none, qs)
  | k + 1, qs =>
    match qs[k]? with
    | none => scanFrom k qs
    | some q =>
      match q.readIfNotEmpty with
      | (some item, q') => (some item, qs.set k q')
      | (none, q') => scanFrom k (qs.set k q')

/-- `bool nonBlockingTake(T &item)` on the buckets: `some item` is the `true` return. -/
def nonBlockingTakeQueues (qs : List (MPMCQueue T)) : Option T × List (MPMCQueue T) :=
  scanFrom qs.length qs

/-- `bool nonBlockingTake(T &item)`. -/
def nonBlockingTake (s : PriorityLifoSemMPMCQueue T) : Option T × PriorityLifoSemMPMCQueue T :=
  let r := nonBlockingTakeQueues s.queues_
  (r.1, { s with queues_ := r.2 })

/-- How a call of `take` ends. -/
inductive TakeResult (T : Type) where
  | returned (item : T)
  /-- `sem_.wait()` never returns. -/
  | blocked
  /-- The iteration bound of the model was reached (never the case for `take`). -/
  | outOfFuel
  deriving DecidableEq, Repr

/-- The `while (true)` loop of `take`, at most `fuel` iterations. -/
def takeLoop : Nat → PriorityLifoSemMPMCQueue T → TakeResult T × PriorityLifoSemMPMCQueue T
  | 0, s => (.outOfFuel, s)
  | fuel + 1, s =>
    match nonBlockingTake s with
    | (some item, s') => (.returned item, s')
    | (none, s') =>
      match s'.sem_.wait with
      | none => (.blocked, s')
      | some sem => takeLoop fuel { s' with sem_ := sem }

/-- `T take()`: every iteration but the last consumes one unit of `sem_`, so
`sem_.value + 1` iterations are enough. -/
def take (s : PriorityLifoSemMPMCQueue T) : TakeResult T × PriorityLifoSemMPMCQueue T :=
  takeLoop (s.sem_.value + 1) s

/-- How a call of `try_take_for` ends. -/
inductive TryTakeResult (T : Type) where
  | returned (item : T)
  /-- `folly::none`. -/
  | none
  /-- The iteration bound of the model was reached (never the case for `try_take_for`). -/
  | outOfFuel
  deriving DecidableEq, Repr

/-- The `while (true)` loop of `try_take_for`, at most `fuel` iterations. -/
def tryTakeLoop : Nat → PriorityLifoSemMPMCQueue T →
    TryTakeResult T × PriorityLifoSemMPMCQueue T
  | 0, s => (.outOfFuel, s)
  | fuel + 1, s =>
    match nonBlockingTake s with
    | (some item, s') => (.returned item, s')
    | (none, s') =>
      match s'.sem_.try_wait_for with
      | (false, sem) => (.none, { s' with sem_ := sem })
      | (true, sem) => tryTakeLoop fuel { s' with sem_ := sem }

/-- `folly::Optional<T> try_take_for(std::chrono::milliseconds time)`. -/
def try_take_for (s : PriorityLifoSemMPMCQueue T) :
    TryTakeResult T × PriorityLifoSemMPMCQueue T :=
  tryTakeLoop (s.sem_.value + 1) s

/-- `size_t size()`: the `size_t` accumulator over `queues_`. -/
def size (s : PriorityLifoSemMPMCQueue T) : Nat :=
  s.queues_.foldl (fun acc q => addSizeT acc q.size) 0

/-- How a constructor call ends. -/
inductive CtorResult (T : Type) where
  | ok (q : PriorityLifoSemMPMCQueue T)
  /-- A `CHECK_GT` / `CHECK_LT` aborted. -/
  | checkFailed
  /-- The iteration bound of the model was reached: the loop is still running. -/
  | outOfFuel
  deriving DecidableEq, Repr

/-- The loop `for (int8_t i = 0; i < numPriorities; i++) queues_.emplace_back(max_capacity);`
started in the state `(i, queues_)` and run for at most `fuel` tests of its condition.  The
comparison is made on `int` after promotion; `i++` stores `i + 1` back into an `int8_t`.
`none` means the loop is still running when the bound is reached. -/
def ctorLoop (numPriorities max_capacity : Nat) :
    Nat → Int → List (MPMCQueue T) → Option (List (MPMCQueue T))
  | 0, _, _ => none
  | fuel + 1, i, queues =>
    if i < (numPriorities : Int) then
      ctorLoop numPriorities max_capacity fuel (wrapInt8 (i + 1))
        (queues ++ [MPMCQueue.mk0 max_capacity])
    else some queues

/-- `PriorityLifoSemMPMCQueue(uint8_t numPriorities, size_t max_capacity, ...)`. -/
def mkUniform (fuel numPriorities max_capacity : Nat) : CtorResult T :=
  if 0 < numPriorities then
    match ctorLoop numPriorities max_capacity fuel 0 [] with
    | some queues => .ok ⟨⟨0⟩, queues⟩
    | none => .outOfFuel
  else .checkFailed

/-- `PriorityLifoSemMPMCQueue(folly::Range<const size_t *> capacities, ...)`. -/
def mkCapacities (capacities : List Nat) : CtorResult T :=
  if 0 < capacities.length then
    if capacities.length < 256 then
      .ok ⟨⟨0⟩, capacities.foldl (fun queues capacity => queues ++ [MPMCQueue.mk0 capacity]) []⟩
    else .checkFailed
  else .checkFailed

end PriorityLifoSemMPMCQueue

/-! ## `ThreadIdWorkerProvider` -/

/-- The C++ type `pid_t`. -/
abbrev pid_t := Int

/-- Modelled from the spec: `folly::SharedMutex` (`folly/SharedMutex.h`), the read/write lock
used as quiescence gate: any number of shared holders, or one exclusive holder. -/
structure SharedMutex where
  readers : Nat
  writer : Bool
  deriving DecidableEq, Repr

namespace SharedMutex

/-- Modelled from the spec: construction of a `SharedMutex::ReadHolder`; `none` when the
acquisition has to wait (an exclusive holder exists). -/
def lock_shared (m : SharedMutex) : Option SharedMutex :=
  if m.writer then none else some { m with readers := m.readers + 1 }

/-- Modelled from the spec: destruction of a `SharedMutex::ReadHolder`. -/
def unlock_shared (m : SharedMutex) : SharedMutex := { m with readers := m.readers - 1 }

/-- Modelled from the spec: construction of a `SharedMutex::WriteHolder`; `none` when the
acquisition has to wait (some holder exists). -/
def lock (m : SharedMutex) : Option SharedMutex :=
  if m.writer then none
  else if m.readers = 0 then some { m with writer := true }
  else none

/-- Modelled from the spec: destruction of a `SharedMutex::WriteHolder`. -/
def unlock (m : SharedMutex) : SharedMutex := { m with writer := false }

end SharedMutex

/-- The data members `osThreadIds_` (a `Synchronized<std::unordered_set<pid_t>>`, declared in
the missing `QueueObserver.h`, kept here as a list of its elements) and `threadsExitMutex_`. -/
structure ThreadIdWorkerProvider where
  osThreadIds_ : List pid_t
  threadsExitMutex_ : SharedMutex
  deriving DecidableEq, Repr

namespace ThreadIdWorkerProvider

/-- Modelled from the spec: `std::unordered_set::insert`, "idempotent set insertion". -/
def setInsert (ids : List pid_t) (tid : pid_t) : List pid_t :=
  if tid ∈ ids then ids else tid :: ids

/-- Modelled from the spec: `std::unordered_set::erase` by key. -/
def setErase (ids : List pid_t) (tid : pid_t) : List pid_t :=
  ids.filter (fun x => x ≠ tid)

/-- A provider with no id and a free gate. -/
def fresh : ThreadIdWorkerProvider := ⟨[], ⟨0, false⟩⟩

/-- `addTid`: `osThreadIds_.wlock()->insert(tid);`. -/
def addTid (p : ThreadIdWorkerProvider) (tid : pid_t) : ThreadIdWorkerProvider :=
  { p with osThreadIds_ := setInsert p.osThreadIds_ tid }

/-- First statement of `removeTid`: `osThreadIds_.wlock()->erase(tid);`. -/
def removeErase (p : ThreadIdWorkerProvider) (tid : pid_t) : ThreadIdWorkerProvider :=
  { p with osThreadIds_ := setErase p.osThreadIds_ tid }

/-- Second statement of `removeTid`: `SharedMutex::WriteHolder w{threadsExitMutex_};` is
constructed; `none` while the call has to wait. -/
def removeAcquire (p : ThreadIdWorkerProvider) : Option ThreadIdWorkerProvider :=
  match p.threadsExitMutex_.lock with
  | none => none
  | some m => some { p with threadsExitMutex_ := m }

/-- Closing brace of `removeTid`: `w` is destroyed, which releases the gate; control goes
back to the caller after that. -/
def removeRelease (p : ThreadIdWorkerProvider) : ThreadIdWorkerProvider :=
  { p with threadsExitMutex_ := p.threadsExitMutex_.unlock }

/-- `removeTid` run without interruption; `none` when it never returns. -/
def removeTid (p : ThreadIdWorkerProvider) (tid : pid_t) : Option ThreadIdWorkerProvider :=
  match (p.removeErase tid).removeAcquire with
  | none => none
  | some p' => some p'.removeRelease

/-- First statement of `collectThreadIds`: the `ReadHolder` of the `WorkerKeepAlive` is
constructed; `none` while the call has to wait. -/
def collectAcquire (p : ThreadIdWorkerProvider) : Option ThreadIdWorkerProvider :=
  match p.threadsExitMutex_.lock_shared with
  | none => none
  | some m => some { p with threadsExitMutex_ := m }

/-- Rest of `collectThreadIds`: `osThreadIds_.rlock()` and the copy
`{locked->begin(), locked->end()}`. -/
def collectRead (p : ThreadIdWorkerProvider) : List pid_t := p.osThreadIds_

/-- `collectThreadIds` run without interruption: the state in which the returned keep-alive is
held, and the returned ids. -/
def collectThreadIds (p : ThreadIdWorkerProvider) :
    Option (ThreadIdWorkerProvider × List pid_t) :=
  match p.collectAcquire with
  | none => none
  | some p' => some (p', p'.collectRead)

/-- `~WorkerKeepAlive`: the `ReadHolder` member is destroyed. -/
def releaseKeepAlive (p : ThreadIdWorkerProvider) : ThreadIdWorkerProvider :=
  { p with threadsExitMutex_ := p.threadsExitMutex_.unlock_shared }

end ThreadIdWorkerProvider

/-! ## Runs of the queue and the notions used to state its properties -/

/-- The saturating map of the specification, `clamp(x, lo, hi)`. -/
def clamp (x lo hi : Int) : Int := max lo (min hi x)

namespace PriorityLifoSemMPMCQueue

variable {T : Type}

/-- The number of pending items, summed across levels (no wraparound). -/
def sumSizes (s : PriorityLifoSemMPMCQueue T) : Nat := (s.queues_.map MPMCQueue.size).sum

/-- The capacities of the levels, in order. -/
def capacities (s : PriorityLifoSemMPMCQueue T) : List Nat := s.queues_.map (fun q => q.capacity)

/-- No bucket holds more than its capacity. -/
def Bounded (s : PriorityLifoSemMPMCQueue T) : Prop :=
  ∀ q ∈ s.queues_, q.items.length ≤ q.capacity

/-- A call made on the queue. -/
inductive Op (T : Type) where
  | addWithPriority (item : T) (priority : int8_t)
  | take
  | try_take_for
  | nonBlockingTake

/-- What a call that came back reported. -/
inductive Event (T : Type) where
  /-- `addWithPriority` returned normally. -/
  | enqueued
  /-- `addWithPriority` threw `QueueFullException`. -/
  | rejected
  /-- `take`, `try_take_for` or `nonBlockingTake` delivered an item. -/
  | dequeued (item : T)
  /-- `try_take_for` returned `folly::none`. -/
  | timedOut
  /-- `nonBlockingTake` returned `false`. -/
  | nothing
  deriving DecidableEq, Repr

/-- One call; `none` when the call does not come back (it blocks for ever or aborts). -/
def callOp (kBehavior : QueueBehaviorIfFull) (s : PriorityLifoSemMPMCQueue T) :
    Op T → Option (Event T × PriorityLifoSemMPMCQueue T)
  | .addWithPriority item priority =>
    match addWithPriority kBehavior s item priority with
    | (.added _, s') => some (.enqueued, s')
    | (.queueFull, s') => some (.rejected, s')
    | (.checkFailed, _) => none
    | (.blocked, _) => none
  | .take =>
    match take s with
    | (.returned item, s') => some (.dequeued item, s')
    | (.blocked, _) => none
    | (.outOfFuel, _) => none
  | .try_take_for =>
    match try_take_for s with
    | (.returned item, s') => some (.dequeued item, s')
    | (.none, s') => some (.timedOut, s')
    | (.outOfFuel, _) => none
  | .nonBlockingTake =>
    match nonBlockingTake s with
    | (some item, s') => some (.dequeued item, s')
    | (none, s') => some (.nothing, s')

/-- A sequence of calls, one after the other, every one of them coming back; the events
reported and the final state. -/
def runOps (kBehavior : QueueBehaviorIfFull) :
    List (Op T) → PriorityLifoSemMPMCQueue T → Option (List (Event T) × PriorityLifoSemMPMCQueue T)
  | [], s => some ([], s)
  | op :: ops, s =>
    match callOp kBehavior s op with
    | none => none
    | some (e, s') =>
      match runOps kBehavior ops s' with
      | none => none
      | some (es, s'') => some (e :: es, s'')

/-- The number of successful enqueues among the events. -/
def countEnqueued : List (Event T) → Nat
  | [] => 0
  | .enqueued :: es => countEnqueued es + 1
  | _ :: es => countEnqueued es

/-- The number of successful dequeues among the events. -/
def countDequeued : List (Event T) → Nat
  | [] => 0
  | .dequeued _ :: es => countDequeued es + 1
  | _ :: es => countDequeued es

/-- The number of successful dequeues after the last `try_take_for` that timed out (after
the start when there is none), the events being read in order from `acc`. -/
def dequeuedSinceTimeout : Nat → List (Event T) → Nat
  | acc, [] => acc
  | acc, .dequeued _ :: es => dequeuedSinceTimeout (acc + 1) es
  | _, .timedOut :: es => dequeuedSinceTimeout 0 es
  | acc, _ :: es => dequeuedSinceTimeout acc es

/-- Enqueue the pairs `(item, priority)` in order; `none` as soon as an enqueue does not
succeed. -/
def enqueueAll (kBehavior : QueueBehaviorIfFull) :
    List (T × int8_t) → PriorityLifoSemMPMCQueue T → Option (PriorityLifoSemMPMCQueue T)
  | [], s => some s
  | (item, priority) :: rest, s =>
    match addWithPriority kBehavior s item priority with
    | (.added _, s') => enqueueAll kBehavior rest s'
    | _ => none

/-- Dequeue with `nonBlockingTake` until it returns `false`, at most `fuel` calls; `none`
when the bound is reached before that. -/
def drain : Nat → PriorityLifoSemMPMCQueue T → Option (List T × PriorityLifoSemMPMCQueue T)
  | 0, _ => none
  | fuel + 1, s =>
    match nonBlockingTake s with
    | (none, s') => some ([], s')
    | (some item, s') =>
      match drain fuel s' with
      | none => none
      | some (items, s'') => some (item :: items, s'')

/-- The pairs of `input` that go to level `i` of a queue of `n` levels, in order. -/
def atLevel (n : Nat) (input : List (T × int8_t)) (i : Nat) : List (T × int8_t) :=
  input.filter (fun e => queueIndex n e.2 = i)

/-- The pairs of `input` ordered by descending level of a queue of `n` levels, pairs of one
level keeping their order. -/
def byDescendingLevel (n : Nat) (input : List (T × int8_t)) : List (T × int8_t) :=
  (List.range n).reverse.flatMap (fun i => atLevel n input i)

/-- The state a call leaves the queue in, however the call ends: normal return, exception,
abort, or the point where it blocks for ever. -/
def stateAfter (kBehavior : QueueBehaviorIfFull) (s : PriorityLifoSemMPMCQueue T) :
    Op T → PriorityLifoSemMPMCQueue T
  | .addWithPriority item priority => (addWithPriority kBehavior s item priority).2
  | .take => (take s).2
  | .try_take_for => (try_take_for s).2
  | .nonBlockingTake => (nonBlockingTake s).2

/-- The state left by a sequence of calls made one after the other. -/
def stateAfterAll (kBehavior : QueueBehaviorIfFull) (ops : List (Op T))
    (s : PriorityLifoSemMPMCQueue T) : PriorityLifoSemMPMCQueue T :=
  ops.foldl (stateAfter kBehavior) s

/-- The buckets of a queue with capacities `caps` once the pairs of `done` have been enqueued:
level `i` holds the items of `done` sent to level `i`, in order. -/
def filled (caps : List Nat) (done : List (T × int8_t)) : List (MPMCQueue T) :=
  caps.mapIdx (fun i c => ⟨c, (atLevel caps.length done i).map Prod.fst⟩)

end PriorityLifoSemMPMCQueue

/-! ## Runs of the registry -/

namespace ThreadIdWorkerProvider

/-- A call made on the provider, or the destruction of a keep-alive returned earlier. -/
inductive Call where
  | addTid (tid : pid_t)
  | removeTid (tid : pid_t)
  | collectThreadIds
  | releaseKeepAlive
  deriving DecidableEq, Repr

/-- One call of a sequential run: the id list returned if the call is `collectThreadIds`, and
the state left; `none` when the call does not come back (or, for `releaseKeepAlive`, when
there is no keep-alive to destroy). -/
def call (p : ThreadIdWorkerProvider) :
    Call → Option (Option (List pid_t) × ThreadIdWorkerProvider)
  | .addTid tid => some (none, p.addTid tid)
  | .removeTid tid =>
    match p.removeTid tid with
    | none => none
    | some p' => some (none, p')
  | .collectThreadIds =>
    match p.collectThreadIds with
    | none => none
    | some (p', ids) => some (some ids, p')
  | .releaseKeepAlive =>
    if 0 < p.threadsExitMutex_.readers then some (none, p.releaseKeepAlive) else none

/-- A sequence of calls, one after the other, every one of them coming back: the id lists
returned by the `collectThreadIds` calls, in order, and the final state. -/
def runCalls : List Call → ThreadIdWorkerProvider →
    Option (List (List pid_t) × ThreadIdWorkerProvider)
  | [], p => some ([], p)
  | c :: cs, p =>
    match call p c with
    | none => none
    | some (r, p') =>
      match runCalls cs p' with
      | none => none
      | some (snaps, p'') =>
        match r with
        | some ids => some (ids :: snaps, p'')
        | none => some (snaps, p'')

/-- The state machine of the specification for one id, `absent → registered` on add and
`registered → absent` on remove, run over the calls from the status `b`. -/
def registeredFrom (id : pid_t) : Bool → List Call → Bool
  | b, [] => b
  | b, .addTid tid :: cs => registeredFrom id (if tid = id then true else b) cs
  | b, .removeTid tid :: cs => registeredFrom id (if tid = id then false else b) cs
  | b, _ :: cs => registeredFrom id b cs

/-- Whether `id` has been added and not removed since its last add. -/
def registeredAfter (calls : List Call) (id : pid_t) : Bool := registeredFrom id false calls

/-- A keep-alive in existence.  `acquiredAt` is a history variable: the step count at which
its read hold was acquired; `ids` is what its `collectThreadIds` call captured, once it has
read `osThreadIds_`. -/
structure KeepAlive where
  acquiredAt : Nat
  ids : Option (List pid_t)
  deriving DecidableEq, Repr

/-- A `removeTid(tid)` call that has made its erase.  `readded` is a history variable: whether
`addTid(tid)` has been made since that erase. -/
structure RemoveCall where
  tid : pid_t
  readded : Bool
  deriving DecidableEq, Repr

/-- A `removeTid` call whose `WriteHolder` has been destroyed and which has not returned yet,
with the step counts of its acquisition and of its release of the gate (history variables). -/
structure Released where
  call : RemoveCall
  acquiredAt : Nat
  releasedAt : Nat
  deriving DecidableEq, Repr

/-- A `removeTid` call that has returned, with the step counts of its acquisition of the gate,
of its release of the gate and of its return (history variables). -/
structure Returned where
  call : RemoveCall
  acquiredAt : Nat
  releasedAt : Nat
  returnedAt : Nat
  deriving DecidableEq, Repr

/-- The provider together with the calls in progress on it.  `erased` lists the `removeTid`
calls that have erased their id and wait for the gate, `exclusive` the one holding the
`WriteHolder` (with the step count of the acquisition), `released` those that have destroyed
it and are about to return.  `now` counts the steps taken and `returned` records the
`removeTid` calls that have returned; both are history variables. -/
structure System where
  provider : ThreadIdWorkerProvider
  keepAlives : List KeepAlive
  erased : List RemoveCall
  exclusive : Option (RemoveCall × Nat)
  released : List Released
  now : Nat
  returned : List Returned
  deriving DecidableEq, Repr

/-- The atomic steps of the interleaved runs. -/
inductive Step where
  | addTid (tid : pid_t)
  /-- `collectThreadIds`, first statement: the read hold is acquired. -/
  | collectAcquire
  /-- `collectThreadIds`, rest: the id set is read for the keep-alive at index `g`. -/
  | collectRead (g : Nat)
  /-- The keep-alive at index `g` is destroyed. -/
  | releaseKeepAlive (g : Nat)
  /-- `removeTid(tid)`, first statement. -/
  | removeErase (tid : pid_t)
  /-- `removeTid`, second statement, for the waiting call at index `c`: the `WriteHolder` is
  acquired. -/
  | removeAcquire (c : Nat)
  /-- `removeTid`, closing brace: the `WriteHolder` is destroyed. -/
  | removeRelease
  /-- `removeTid`: control is back in the caller, for the call at index `c` of those that
  have destroyed their `WriteHolder`. -/
  | removeReturn (c : Nat)
  deriving DecidableEq, Repr

/-- The record of a `removeTid` call after `addTid(tid)` has been made. -/
def noteAdd (tid : pid_t) (c : RemoveCall) : RemoveCall :=
  if c.tid = tid then { c with readded := true } else c

/-- One atomic step; `none` when the step cannot be taken in this state. -/
def step (σ : System) : Step → Option System
  | .addTid tid =>
    some { σ with provider := σ.provider.addTid tid,
                  erased := σ.erased.map (noteAdd tid),
                  exclusive := σ.exclusive.map (fun e => (noteAdd tid e.1, e.2)),
                  released := σ.released.map (fun r => { r with call := noteAdd tid r.call }),
                  now := σ.now + 1 }
  | .collectAcquire =>
    match σ.provider.collectAcquire with
    | none => none
    | some p =>
      some { σ with provider := p, keepAlives := σ.keepAlives ++ [⟨σ.now, none⟩],
                    now := σ.now + 1 }
  | .collectRead g =>
    match σ.keepAlives[g]? with
    | some ⟨t, none⟩ =>
      some { σ with keepAlives := σ.keepAlives.set g ⟨t, some σ.provider.collectRead⟩,
                    now := σ.now + 1 }
    | _ => none
  | .releaseKeepAlive g =>
    if g < σ.keepAlives.length then
      some { σ with provider := σ.provider.releaseKeepAlive,
                    keepAlives := σ.keepAlives.eraseIdx g, now := σ.now + 1 }
    else none
  | .removeErase tid =>
    some { σ with provider := σ.provider.removeErase tid,
                  erased := σ.erased ++ [⟨tid, false⟩], now := σ.now + 1 }
  | .removeAcquire c =>
    match σ.erased[c]? with
    | none => none
    | some call =>
      match σ.provider.removeAcquire with
      | none => none
      | some p =>
        some { σ with provider := p, erased := σ.erased.eraseIdx c,
                      exclusive := some (call, σ.now), now := σ.now + 1 }
  | .removeRelease =>
    match σ.exclusive with
    | none => none
    | some (call, t) =>
      some { σ with provider := σ.provider.removeRelease, exclusive := none,
                    released := σ.released ++ [⟨call, t, σ.now⟩], now := σ.now + 1 }
  | .removeReturn c =>
    match σ.released[c]? with
    | none => none
    | some r =>
      some { σ with released := σ.released.eraseIdx c,
                    returned := ⟨r.call, r.acquiredAt, r.releasedAt, σ.now⟩ :: σ.returned,
                    now := σ.now + 1 }

/-- The system before any step. -/
def System.init : System := ⟨fresh, [], [], none, [], 0, []⟩

/-- A sequence of atomic steps; `none` when one of them cannot be taken. -/
def exec : List Step → System → Option System
  | [], σ => some σ
  | st :: sts, σ =>
    match step σ st with
    | none => none
    | some σ' => exec sts σ'

/-- The facts that hold in every reachable state.  The gate's holders are the keep-alives and
the `removeTid` call between its acquisition and its release, never both; recorded times lie
in the past and in order; every keep-alive in existence was acquired after the release of the
gate by every `removeTid` call past that release; and the id of a `removeTid` call that has
not been added again is neither in the id set nor in a list captured by an existing
keep-alive once the call has released the gate. -/
structure Inv (σ : System) : Prop where
  readers_eq : σ.provider.threadsExitMutex_.readers = σ.keepAlives.length
  writer_iff : σ.provider.threadsExitMutex_.writer = true ↔ σ.exclusive ≠ none
  excl_no_guard : σ.exclusive ≠ none → σ.keepAlives = []
  guard_past : ∀ g ∈ σ.keepAlives, g.acquiredAt < σ.now
  excl_past : ∀ e, σ.exclusive = some e → e.2 < σ.now
  released_past : ∀ r ∈ σ.released, r.acquiredAt < r.releasedAt ∧ r.releasedAt < σ.now
  returned_past : ∀ r ∈ σ.returned,
    r.acquiredAt < r.releasedAt ∧ r.releasedAt < r.returnedAt ∧ r.returnedAt < σ.now
  guard_after_released : ∀ g ∈ σ.keepAlives, ∀ r ∈ σ.released, r.releasedAt < g.acquiredAt
  guard_after_returned : ∀ g ∈ σ.keepAlives, ∀ r ∈ σ.returned, r.releasedAt < g.acquiredAt
  erased_absent : ∀ c ∈ σ.erased, c.readded = false → c.tid ∉ σ.provider.osThreadIds_
  excl_absent : ∀ e, σ.exclusive = some e → e.1.readded = false →
    e.1.tid ∉ σ.provider.osThreadIds_
  released_absent : ∀ r ∈ σ.released, r.call.readded = false →
    r.call.tid ∉ σ.provider.osThreadIds_
  released_unseen : ∀ r ∈ σ.released, r.call.readded = false →
    ∀ g ∈ σ.keepAlives, ∀ ids, g.ids = some ids → r.call.tid ∉ ids

end ThreadIdWorkerProvider

/-! ## `QueueObserverFactory` -/

namespace QueueObserverFactory

/-- The type of the function `make_queue_observer_factory`: from the context, the number of
priorities and the worker provider to a `std::unique_ptr<QueueObserverFactory>`, `none` being
the empty pointer. -/
abbrev FactoryFn (Factory Provider : Type) : Type := String → Nat → Provider → Option Factory

variable {F P : Type}

/-- `make_queue_observer_factory_fallback`: `return std::unique_ptr<...>();`. -/
def make_queue_observer_factory_fallback : FactoryFn F P :=
  fun _ _ _ => none

/-- `QueueObserverFactory::make`.  The function pointer `make_queue_observer_factory`, declared
in the missing `QueueObserver.h`, is a parameter: `none` is the null pointer (no factory
registered). -/
def make (make_queue_observer_factory : Option (FactoryFn F P))
    (context : String) (numPriorities : Nat) (workerProvider : P) : Option F :=
  let f : FactoryFn F P :=
    match make_queue_observer_factory with
    | some g => g
    | none => make_queue_observer_factory_fallback
  f context numPriorities workerProvider

end QueueObserverFactory

/-! ## Properties of the queue -/

namespace PriorityLifoSemMPMCQueue

variable {T : Type}

theorem set_getElem_same {α : Type} (l : List α) (i : Nat) (h : i < l.length) :
    l.set i l[i] = l := by
  apply List.ext_getElem (by simp)
  intro n h1 h2
  by_cases hn : i = n
  · subst hn; simp
  · simp [List.getElem_set_ne hn]

theorem readIfNotEmpty_of_nil (q : MPMCQueue T) (h : q.items = []) :
    q.readIfNotEmpty = (none, q) := by
  unfold MPMCQueue.readIfNotEmpty
  rw [h]

theorem readIfNotEmpty_of_cons (q : MPMCQueue T) (x : T) (rest : List T)
    (h : q.items = x :: rest) :
    q.readIfNotEmpty = (some x, { q with items := rest }) := by
  unfold MPMCQueue.readIfNotEmpty
  rw [h]

/-- A scan over buckets that are all empty finds nothing and changes nothing. -/
theorem scanFrom_all_empty (k : Nat) (qs : List (MPMCQueue T))
    (h : ∀ j (hj : j < qs.length), j < k → qs[j].items = []) :
    scanFrom k qs = (none, qs) := by
  induction k with
  | zero => rfl
  | succ k ih =>
    unfold scanFrom
    by_cases hk : k < qs.length
    · have hq : qs[k]? = some qs[k] := List.getElem?_eq_getElem hk
      rw [hq]
      simp only [readIfNotEmpty_of_nil _ (h k hk (Nat.lt_succ_self k)), set_getElem_same]
      exact ih (fun j hj hjk => h j hj (Nat.lt_succ_of_lt hjk))
    · have hq : qs[k]? = none := List.getElem?_eq_none (Nat.le_of_not_lt hk)
      rw [hq]
      exact ih (fun j hj hjk => h j hj (Nat.lt_succ_of_lt hjk))

/-- A scan stops at the highest non-empty bucket below its start and pops its head. -/
theorem scanFrom_found (k : Nat) (qs : List (MPMCQueue T)) (i : Nat) (hi : i < qs.length)
    (hik : i < k) (x : T) (rest : List T) (hx : qs[i].items = x :: rest)
    (hempty : ∀ j (hj : j < qs.length), i < j → j < k → qs[j].items = []) :
    scanFrom k qs = (some x, qs.set i { qs[i] with items := rest }) := by
  induction k with
  | zero => exact absurd hik (Nat.not_lt_zero i)
  | succ k ih =>
    unfold scanFrom
    by_cases hk : k < qs.length
    · have hq : qs[k]? = some qs[k] := List.getElem?_eq_getElem hk
      rw [hq]
      by_cases hik' : i = k
      · subst hik'
        simp only [readIfNotEmpty_of_cons _ x rest hx]
      · have hlt : i < k := by omega
        simp only [readIfNotEmpty_of_nil _ (hempty k hk hlt (Nat.lt_succ_self k)),
          set_getElem_same]
        exact ih hlt (fun j hj hij hjk => hempty j hj hij (Nat.lt_succ_of_lt hjk))
    · have hq : qs[k]? = none := List.getElem?_eq_none (Nat.le_of_not_lt hk)
      rw [hq]
      have hlt : i < k := by omega
      exact ih hlt (fun j hj hij hjk => hempty j hj hij (Nat.lt_succ_of_lt hjk))

/-- Below any bound, either every bucket is empty or there is a highest non-empty one. -/
theorem highest_nonempty (qs : List (MPMCQueue T)) (k : Nat) :
    (∀ j (hj : j < qs.length), j < k → qs[j].items = []) ∨
    ∃ i, ∃ hi : i < qs.length, ∃ x rest, i < k ∧ qs[i].items = x :: rest ∧
      ∀ j (hj : j < qs.length), i < j → j < k → qs[j].items = [] := by
  induction k with
  | zero => exact Or.inl (fun j _ hj0 => absurd hj0 (Nat.not_lt_zero j))
  | succ k ih =>
    by_cases hk : k < qs.length
    · cases hitems : qs[k].items with
      | nil =>
        rcases ih with h | ⟨i, hi, x, rest, hik, hx, hempty⟩
        · left
          intro j hj hjk
          by_cases hjk' : j = k
          · subst hjk'; exact hitems
          · exact h j hj (by omega)
        · right
          refine ⟨i, hi, x, rest, Nat.lt_succ_of_lt hik, hx, ?_⟩
          intro j hj hij hjk
          by_cases hjk' : j = k
          · subst hjk'; exact hitems
          · exact hempty j hj hij (by omega)
      | cons x rest =>
        right
        exact ⟨k, hk, x, rest, Nat.lt_succ_self k, hitems, fun j _ h1 h2 => by omega⟩
    · rcases ih with h | ⟨i, hi, x, rest, hik, hx, hempty⟩
      · left
        intro j hj hjk
        exact h j hj (by omega)
      · right
        refine ⟨i, hi, x, rest, Nat.lt_succ_of_lt hik, hx, ?_⟩
        intro j hj hij hjk
        exact hempty j hj hij (by omega)

theorem nonBlockingTake_eq (s : PriorityLifoSemMPMCQueue T) :
    nonBlockingTake s =
      ((scanFrom s.queues_.length s.queues_).1,
        { s with queues_ := (scanFrom s.queues_.length s.queues_).2 }) := rfl

theorem take_of_scan_some (s s' : PriorityLifoSemMPMCQueue T) (x : T)
    (h : nonBlockingTake s = (some x, s')) : take s = (.returned x, s') := by
  unfold take takeLoop
  rw [h]

/-- C1: whenever some bucket is non-empty, `nonBlockingTake` and `take` return the oldest
item of the highest-indexed non-empty bucket and remove exactly that item, every other bucket
(and the semaphore) staying as it was; `nonBlockingTake` returns `false` iff every bucket is
empty, and then the state is unchanged. -/
theorem dequeue_takes_oldest_of_highest_level (s : PriorityLifoSemMPMCQueue T) :
    ((∃ q ∈ s.queues_, q.items ≠ []) →
      ∃ i, ∃ hi : i < s.queues_.length, ∃ x rest,
        s.queues_[i].items = x :: rest ∧
        (∀ j (hj : j < s.queues_.length), i < j → s.queues_[j].items = []) ∧
        nonBlockingTake s =
          (some x, { s with queues_ := s.queues_.set i { s.queues_[i] with items := rest } }) ∧
        take s =
          (.returned x,
            { s with queues_ := s.queues_.set i { s.queues_[i] with items := rest } })) ∧
    ((nonBlockingTake s).1 = none ↔ ∀ q ∈ s.queues_, q.items = []) ∧
    ((nonBlockingTake s).1 = none → (nonBlockingTake s).2 = s) := by
  rcases highest_nonempty s.queues_ s.queues_.length with hall | ⟨i, hi, x, rest, _, hx, hempty⟩
  · have hscan := scanFrom_all_empty s.queues_.length s.queues_ hall
    have hnb : nonBlockingTake s = (none, s) := by rw [nonBlockingTake_eq, hscan]
    have hmem : ∀ q ∈ s.queues_, q.items = [] := by
      intro q hq
      obtain ⟨j, hj, rfl⟩ := List.getElem_of_mem hq
      exact hall j hj hj
    refine ⟨?_, ?_, ?_⟩
    · rintro ⟨q, hq, hne⟩
      exact absurd (hmem q hq) hne
    · rw [hnb]; exact ⟨fun _ => hmem, fun _ => rfl⟩
    · rw [hnb]; intro _; rfl
  · have hscan := scanFrom_found s.queues_.length s.queues_ i hi hi x rest hx
      (fun j hj hij _ => hempty j hj hij hj)
    have hnb : nonBlockingTake s =
        (some x, { s with queues_ := s.queues_.set i { s.queues_[i] with items := rest } }) := by
      rw [nonBlockingTake_eq, hscan]
    refine ⟨?_, ?_, ?_⟩
    · intro _
      exact ⟨i, hi, x, rest, hx, fun j hj hij => hempty j hj hij hj, hnb,
        take_of_scan_some _ _ _ hnb⟩
    · rw [hnb]
      constructor
      · intro h; cases h
      · intro h
        have := h _ (List.getElem_mem hi)
        rw [hx] at this
        cases this
    · rw [hnb]; intro h; cases h

/-- C1, on a queue of three levels whose two upper levels hold items. -/
theorem dequeue_takes_oldest_of_highest_level_witness :
    (∃ q ∈ (⟨⟨2⟩, [⟨2, [5]⟩, ⟨2, [7, 8]⟩, ⟨2, []⟩]⟩ : PriorityLifoSemMPMCQueue Nat).queues_,
        q.items ≠ []) ∧
    nonBlockingTake (⟨⟨2⟩, [⟨2, [5]⟩, ⟨2, [7, 8]⟩, ⟨2, []⟩]⟩ : PriorityLifoSemMPMCQueue Nat) =
      (some 7, ⟨⟨2⟩, [⟨2, [5]⟩, ⟨2, [8]⟩, ⟨2, []⟩]⟩) ∧
    ((nonBlockingTake
        (⟨⟨2⟩, [⟨2, [5]⟩, ⟨2, [7, 8]⟩, ⟨2, []⟩]⟩ : PriorityLifoSemMPMCQueue Nat)).1 = none ↔
      ∀ q ∈ (⟨⟨2⟩, [⟨2, [5]⟩, ⟨2, [7, 8]⟩, ⟨2, []⟩]⟩ : PriorityLifoSemMPMCQueue Nat).queues_,
        q.items = []) :=
  ⟨⟨⟨2, [7, 8]⟩, by simp, by simp⟩, by decide,
    (dequeue_takes_oldest_of_highest_level
      (⟨⟨2⟩, [⟨2, [5]⟩, ⟨2, [7, 8]⟩, ⟨2, []⟩]⟩ : PriorityLifoSemMPMCQueue Nat)).2.1⟩

/-! ### The level of a priority -/

theorem getNumPriorities_eq (s : PriorityLifoSemMPMCQueue T) (h : s.queues_.length ≤ 255) :
    s.getNumPriorities = s.queues_.length := by
  unfold getNumPriorities toUInt8
  omega

theorem queueIndex_cast (n : Nat) (h1 : 1 ≤ n) (h2 : n ≤ 255) (p : int8_t) :
    (queueIndex n p : Int) = clamp ((n : Int) / 2 + p.val) 0 ((n : Int) - 1) := by
  have hlo := p.lo
  have hhi := p.hi
  unfold queueIndex toSizeT clamp
  simp only
  split <;> omega

theorem queueIndex_lt (n : Nat) (h1 : 1 ≤ n) (h2 : n ≤ 255) (p : int8_t) :
    queueIndex n p < n := by
  have h := queueIndex_cast n h1 h2 p
  unfold clamp at h
  omega

theorem queueIndex_lt_length (s : PriorityLifoSemMPMCQueue T) (h1 : 1 ≤ s.queues_.length)
    (h2 : s.queues_.length ≤ 255) (p : int8_t) :
    queueIndex s.getNumPriorities p < s.queues_.length := by
  rw [getNumPriorities_eq s h2]
  exact queueIndex_lt _ h1 h2 p

/-! ### The three ways `addWithPriority` can end once the `CHECK_LT` has passed -/

theorem addWithPriority_of_room (k : QueueBehaviorIfFull) (s : PriorityLifoSemMPMCQueue T)
    (item : T) (p : int8_t) (hl : queueIndex s.getNumPriorities p < s.queues_.length)
    (hroom : s.queues_[queueIndex s.getNumPriorities p].items.length <
      s.queues_[queueIndex s.getNumPriorities p].capacity) :
    addWithPriority k s item p =
      (.added false, ⟨⟨s.sem_.value + 1⟩,
        s.queues_.set (queueIndex s.getNumPriorities p)
          { s.queues_[queueIndex s.getNumPriorities p] with
            items := s.queues_[queueIndex s.getNumPriorities p].items ++ [item] }⟩) := by
  unfold addWithPriority
  cases k <;>
    simp [hl, MPMCQueue.writeIfNotFull, MPMCQueue.blockingWrite, hroom, LifoSem.post]

theorem addWithPriority_throw_of_full (s : PriorityLifoSemMPMCQueue T)
    (item : T) (p : int8_t) (hl : queueIndex s.getNumPriorities p < s.queues_.length)
    (hfull : s.queues_[queueIndex s.getNumPriorities p].capacity ≤
      s.queues_[queueIndex s.getNumPriorities p].items.length) :
    addWithPriority .THROW s item p = (.queueFull, s) := by
  unfold addWithPriority
  simp [hl, MPMCQueue.writeIfNotFull, Nat.not_lt.mpr hfull, set_getElem_same]

theorem addWithPriority_block_of_full (s : PriorityLifoSemMPMCQueue T)
    (item : T) (p : int8_t) (hl : queueIndex s.getNumPriorities p < s.queues_.length)
    (hfull : s.queues_[queueIndex s.getNumPriorities p].capacity ≤
      s.queues_[queueIndex s.getNumPriorities p].items.length) :
    addWithPriority .BLOCK s item p = (.blocked, s) := by
  unfold addWithPriority
  simp [hl, MPMCQueue.blockingWrite, Nat.not_lt.mpr hfull]

theorem addWithPriority_of_check_failed (k : QueueBehaviorIfFull)
    (s : PriorityLifoSemMPMCQueue T) (item : T) (p : int8_t)
    (hl : ¬ queueIndex s.getNumPriorities p < s.queues_.length) :
    addWithPriority k s item p = (.checkFailed, s) := by
  unfold addWithPriority
  simp [hl]

/-- C3: for `1 ≤ N ≤ 255` levels and every `int8_t` priority, the index computed by
`addWithPriority` is `clamp(N/2 + priority, 0, N-1)`; it is below `N`, and
`CHECK_LT(queue, queues_.size())` never aborts the call. -/
theorem queueIndex_eq_clamp (n : Nat) (h1 : 1 ≤ n) (h2 : n ≤ 255) (p : int8_t) :
    (queueIndex n p : Int) = clamp ((n : Int) / 2 + p.val) 0 ((n : Int) - 1) ∧
    queueIndex n p < n ∧
    ∀ (k : QueueBehaviorIfFull) (s : PriorityLifoSemMPMCQueue T) (item : T),
      s.queues_.length = n →
        queueIndex s.getNumPriorities p = queueIndex n p ∧
        (addWithPriority k s item p).1 ≠ .checkFailed := by
  refine ⟨queueIndex_cast n h1 h2 p, queueIndex_lt n h1 h2 p, ?_⟩
  intro k s item hn
  subst hn
  have hl := queueIndex_lt_length s h1 h2 p
  refine ⟨by rw [getNumPriorities_eq s h2], ?_⟩
  by_cases hroom : s.queues_[queueIndex s.getNumPriorities p].items.length <
      s.queues_[queueIndex s.getNumPriorities p].capacity
  · rw [addWithPriority_of_room k s item p hl hroom]
    simp
  · cases k
    · rw [addWithPriority_throw_of_full s item p hl (Nat.le_of_not_lt hroom)]
      simp
    · rw [addWithPriority_block_of_full s item p hl (Nat.le_of_not_lt hroom)]
      simp

/-- C3, with five levels and the greatest priority: the index saturates at 4. -/
theorem queueIndex_eq_clamp_witness :
    (1 ≤ 5 ∧ 5 ≤ 255) ∧ queueIndex 5 HI_PRI = 4 ∧
    (queueIndex 5 HI_PRI : Int) = clamp ((5 : Int) / 2 + HI_PRI.val) 0 ((5 : Int) - 1) :=
  ⟨⟨by decide, by decide⟩, by decide,
    (queueIndex_eq_clamp (T := Nat) 5 (by decide) (by decide) HI_PRI).1⟩

/-- C4: under the THROW policy, `addWithPriority` throws `QueueFullException` iff the bucket
of the priority's level is at capacity, and then the state left behind is the state before the
call (all buckets, `size()` and the semaphore's value). -/
theorem addWithPriority_throws_iff_full (s : PriorityLifoSemMPMCQueue T)
    (h1 : 1 ≤ s.queues_.length) (h2 : s.queues_.length ≤ 255) (item : T) (p : int8_t) :
    ∃ hl : queueIndex s.getNumPriorities p < s.queues_.length,
      ((addWithPriority .THROW s item p).1 = .queueFull ↔
        s.queues_[queueIndex s.getNumPriorities p].capacity ≤
          s.queues_[queueIndex s.getNumPriorities p].size) ∧
      (s.queues_[queueIndex s.getNumPriorities p].size ≤
          s.queues_[queueIndex s.getNumPriorities p].capacity →
        ((addWithPriority .THROW s item p).1 = .queueFull ↔
          s.queues_[queueIndex s.getNumPriorities p].size =
            s.queues_[queueIndex s.getNumPriorities p].capacity)) ∧
      ((addWithPriority .THROW s item p).1 = .queueFull →
        (addWithPriority .THROW s item p).2 = s ∧
        (addWithPriority .THROW s item p).2.queues_ = s.queues_ ∧
        (addWithPriority .THROW s item p).2.size = s.size ∧
        (addWithPriority .THROW s item p).2.sem_.value = s.sem_.value) := by
  have hl := queueIndex_lt_length s h1 h2 p
  refine ⟨hl, ?_⟩
  unfold MPMCQueue.size
  by_cases hroom : s.queues_[queueIndex s.getNumPriorities p].items.length <
      s.queues_[queueIndex s.getNumPriorities p].capacity
  · rw [addWithPriority_of_room .THROW s item p hl hroom]
    refine ⟨?_, ?_, ?_⟩
    · constructor
      · intro h; cases h
      · intro h; omega
    · intro _
      constructor
      · intro h; cases h
      · intro h; omega
    · intro h; cases h
  · rw [addWithPriority_throw_of_full s item p hl (Nat.le_of_not_lt hroom)]
    refine ⟨?_, ?_, ?_⟩
    · exact ⟨fun _ => Nat.le_of_not_lt hroom, fun _ => rfl⟩
    · intro hb
      exact ⟨fun _ => by omega, fun _ => rfl⟩
    · intro _
      exact ⟨rfl, rfl, rfl, rfl⟩

/-- C4, on a queue of three levels whose middle bucket is full. -/
theorem addWithPriority_throws_iff_full_witness :
    (1 ≤ (⟨⟨2⟩, [⟨2, []⟩, ⟨2, [7, 8]⟩, ⟨2, []⟩]⟩ : PriorityLifoSemMPMCQueue Nat).queues_.length ∧
      (⟨⟨2⟩, [⟨2, []⟩, ⟨2, [7, 8]⟩, ⟨2, []⟩]⟩ : PriorityLifoSemMPMCQueue Nat).queues_.length
        ≤ 255) ∧
    addWithPriority .THROW
        (⟨⟨2⟩, [⟨2, []⟩, ⟨2, [7, 8]⟩, ⟨2, []⟩]⟩ : PriorityLifoSemMPMCQueue Nat) 9 MID_PRI =
      (.queueFull, ⟨⟨2⟩, [⟨2, []⟩, ⟨2, [7, 8]⟩, ⟨2, []⟩]⟩) ∧
    ∃ _hl : queueIndex
        (⟨⟨2⟩, [⟨2, []⟩, ⟨2, [7, 8]⟩, ⟨2, []⟩]⟩ : PriorityLifoSemMPMCQueue Nat).getNumPriorities
        MID_PRI < 3, True :=
  ⟨⟨by decide, by decide⟩, by decide,
    (addWithPriority_throws_iff_full
      (⟨⟨2⟩, [⟨2, []⟩, ⟨2, [7, 8]⟩, ⟨2, []⟩]⟩ : PriorityLifoSemMPMCQueue Nat)
      (by decide) (by decide) 9 MID_PRI).elim (fun hl _ => ⟨hl, trivial⟩)⟩

/-- C10: a successful `addWithPriority` (either policy) appends the item at the tail of the
bucket of the priority's level, leaves every other bucket as it was, and raises the
semaphore's value by exactly one. -/
theorem addWithPriority_success_frame (k : QueueBehaviorIfFull) (s : PriorityLifoSemMPMCQueue T)
    (item : T) (p : int8_t) (woke : Bool) (h : (addWithPriority k s item p).1 = .added woke) :
    ∃ hl : queueIndex s.getNumPriorities p < s.queues_.length,
      (addWithPriority k s item p).2.queues_ =
        s.queues_.set (queueIndex s.getNumPriorities p)
          { s.queues_[queueIndex s.getNumPriorities p] with
            items := s.queues_[queueIndex s.getNumPriorities p].items ++ [item] } ∧
      (addWithPriority k s item p).2.queues_.length = s.queues_.length ∧
      (∀ j, j ≠ queueIndex s.getNumPriorities p →
        (addWithPriority k s item p).2.queues_[j]? = s.queues_[j]?) ∧
      (addWithPriority k s item p).2.sem_.value = s.sem_.value + 1 := by
  by_cases hl : queueIndex s.getNumPriorities p < s.queues_.length
  · refine ⟨hl, ?_⟩
    by_cases hroom : s.queues_[queueIndex s.getNumPriorities p].items.length <
        s.queues_[queueIndex s.getNumPriorities p].capacity
    · rw [addWithPriority_of_room k s item p hl hroom]
      refine ⟨rfl, by simp, ?_, rfl⟩
      intro j hj
      simp [List.getElem?_set_ne (Ne.symm hj)]
    · exfalso
      cases k
      · rw [addWithPriority_throw_of_full s item p hl (Nat.le_of_not_lt hroom)] at h
        cases h
      · rw [addWithPriority_block_of_full s item p hl (Nat.le_of_not_lt hroom)] at h
        cases h
  · exfalso
    rw [addWithPriority_of_check_failed k s item p hl] at h
    cases h

/-- C10, on a queue of three levels: priority -1 goes to level 0 only. -/
theorem addWithPriority_success_frame_witness :
    (addWithPriority .BLOCK
        (⟨⟨2⟩, [⟨2, [5]⟩, ⟨2, [7, 8]⟩, ⟨2, []⟩]⟩ : PriorityLifoSemMPMCQueue Nat) 9
        ⟨-1, by decide, by decide⟩).1 = .added false ∧
    (addWithPriority .BLOCK
        (⟨⟨2⟩, [⟨2, [5]⟩, ⟨2, [7, 8]⟩, ⟨2, []⟩]⟩ : PriorityLifoSemMPMCQueue Nat) 9
        ⟨-1, by decide, by decide⟩).2 = ⟨⟨3⟩, [⟨2, [5, 9]⟩, ⟨2, [7, 8]⟩, ⟨2, []⟩]⟩ ∧
    (addWithPriority .BLOCK
        (⟨⟨2⟩, [⟨2, [5]⟩, ⟨2, [7, 8]⟩, ⟨2, []⟩]⟩ : PriorityLifoSemMPMCQueue Nat) 9
        ⟨-1, by decide, by decide⟩).2.sem_.value = 2 + 1 :=
  ⟨by decide, by decide,
    (addWithPriority_success_frame .BLOCK
      (⟨⟨2⟩, [⟨2, [5]⟩, ⟨2, [7, 8]⟩, ⟨2, []⟩]⟩ : PriorityLifoSemMPMCQueue Nat) 9
      ⟨-1, by decide, by decide⟩ false (by decide)).elim (fun _ h => h.2.2.2)⟩

/-! ### The constructors -/

/-- While the counter stays below 128 the loop of the uniform constructor behaves as a
counting loop: started at `j ≤ n ≤ 127` it appends `n - j` buckets and stops. -/
theorem ctorLoop_small (n c : Nat) (hn : n ≤ 127) (fuel j : Nat) (qs : List (MPMCQueue T))
    (hj : j ≤ n) (hfuel : n - j < fuel) :
    ctorLoop n c fuel (j : Int) qs = some (qs ++ List.replicate (n - j) (MPMCQueue.mk0 c)) := by
  induction fuel generalizing j qs with
  | zero => omega
  | succ fuel ih =>
    unfold ctorLoop
    by_cases hlt : j < n
    · have hcond : (j : Int) < (n : Int) := by omega
      have hwrap : wrapInt8 ((j : Int) + 1) = ((j + 1 : Nat) : Int) := by
        unfold wrapInt8; omega
      rw [if_pos hcond, hwrap, ih (j + 1) _ (by omega) (by omega)]
      have hrep : n - j = (n - (j + 1)) + 1 := by omega
      rw [hrep, List.replicate_succ, List.append_assoc]
      rfl
    · have hcond : ¬ (j : Int) < (n : Int) := by omega
      have hz : n - j = 0 := by omega
      rw [if_neg hcond, hz]
      simp

/-- For `1 ≤ numPriorities ≤ 127` the uniform constructor returns a queue of exactly
`numPriorities` empty buckets of the given capacity, with a semaphore at zero. -/
theorem mkUniform_small (n c fuel : Nat) (h1 : 1 ≤ n) (h2 : n ≤ 127) (hfuel : n < fuel) :
    mkUniform (T := T) fuel n c = .ok ⟨⟨0⟩, List.replicate n (MPMCQueue.mk0 c)⟩ := by
  unfold mkUniform
  have h := ctorLoop_small (T := T) n c h2 fuel 0 [] (Nat.zero_le n) (by omega)
  simp only [Nat.cast_zero] at h
  rw [if_pos (by omega), h]
  simp

/-- `CHECK_GT(numPriorities, 0)` aborts the uniform constructor for `numPriorities = 0`. -/
theorem mkUniform_zero (c fuel : Nat) : mkUniform (T := T) fuel 0 c = .checkFailed := by
  unfold mkUniform
  simp

/-- With `numPriorities ≥ 128` the `int8_t` counter can never reach the bound: whatever the
number of iterations allowed, the loop is still running. -/
theorem ctorLoop_large (n c : Nat) (hn : 128 ≤ n) (fuel : Nat) (i : Int)
    (qs : List (MPMCQueue T)) (hlo : -128 ≤ i) (hhi : i ≤ 127) :
    ctorLoop n c fuel i qs = none := by
  induction fuel generalizing i qs with
  | zero => rfl
  | succ fuel ih =>
    unfold ctorLoop
    have hcond : i < (n : Int) := by omega
    rw [if_pos hcond]
    apply ih
    · unfold wrapInt8; omega
    · unfold wrapInt8; omega

theorem mkUniform_large (n c fuel : Nat) (hn : 128 ≤ n) :
    mkUniform (T := T) fuel n c = .outOfFuel := by
  unfold mkUniform
  rw [if_pos (by omega), ctorLoop_large n c hn fuel 0 [] (by decide) (by decide)]

/-- C7 (at the failing input): with `numPriorities = 128` the uniform constructor never
returns, whatever the capacity and however many iterations its loop is given: the `int8_t`
counter wraps from 127 to -128 and stays below the bound. -/
theorem mkUniform_128_never_returns (c fuel : Nat) :
    mkUniform (T := T) fuel 128 c = .outOfFuel :=
  mkUniform_large 128 c fuel (by decide)

/-! ### The effect of one call on sizes, capacities and the semaphore -/

theorem sum_map_set {α : Type} (f : α → Nat) (l : List α) (i : Nat) (hi : i < l.length)
    (b : α) : ((l.set i b).map f).sum + f l[i] = (l.map f).sum + f b := by
  induction l generalizing i with
  | nil => exact absurd hi (Nat.not_lt_zero i)
  | cons a l ih =>
    cases i with
    | zero => simp; omega
    | succ i =>
      have := ih i (Nat.lt_of_succ_lt_succ hi)
      simp only [List.set_cons_succ, List.map_cons, List.sum_cons, List.getElem_cons_succ]
      omega

theorem map_set_same {α β : Type} (f : α → β) (l : List α) (i : Nat) (hi : i < l.length)
    (b : α) (h : f b = f l[i]) : (l.set i b).map f = l.map f := by
  induction l generalizing i with
  | nil => rfl
  | cons a l ih =>
    cases i with
    | zero => simpa using h
    | succ i =>
      simp only [List.set_cons_succ, List.map_cons]
      rw [ih i (Nat.lt_of_succ_lt_succ hi) (by simpa using h)]

/-- The state `s'` is `s` with the head `x` of the highest non-empty bucket removed. -/
theorem pop_effect (s : PriorityLifoSemMPMCQueue T) (i : Nat) (hi : i < s.queues_.length)
    (x : T) (rest : List T) (hx : s.queues_[i].items = x :: rest) :
    capacities { s with queues_ := s.queues_.set i { s.queues_[i] with items := rest } } =
      capacities s ∧
    (Bounded s →
      Bounded { s with queues_ := s.queues_.set i { s.queues_[i] with items := rest } }) ∧
    sumSizes s =
      sumSizes { s with queues_ := s.queues_.set i { s.queues_[i] with items := rest } } + 1 := by
  refine ⟨?_, ?_, ?_⟩
  · exact map_set_same _ _ i hi _ rfl
  · intro hb q hq
    rcases List.mem_or_eq_of_mem_set hq with hq | hq
    · exact hb q hq
    · subst hq
      have := hb _ (List.getElem_mem hi)
      rw [hx] at this
      simp only [List.length_cons] at this
      show rest.length ≤ s.queues_[i].capacity
      omega
  · have h := sum_map_set MPMCQueue.size s.queues_ i hi { s.queues_[i] with items := rest }
    unfold sumSizes
    simp only [MPMCQueue.size, hx, List.length_cons] at h ⊢
    omega

/-- The state `s'` is `s` with `item` appended to a bucket that had room. -/
theorem push_effect (s : PriorityLifoSemMPMCQueue T) (sem : LifoSem) (i : Nat)
    (hi : i < s.queues_.length) (item : T)
    (hroom : s.queues_[i].items.length < s.queues_[i].capacity) :
    capacities (⟨sem, s.queues_.set i
        { s.queues_[i] with items := s.queues_[i].items ++ [item] }⟩ :
        PriorityLifoSemMPMCQueue T) = capacities s ∧
    (Bounded s → Bounded (⟨sem, s.queues_.set i
        { s.queues_[i] with items := s.queues_[i].items ++ [item] }⟩ :
        PriorityLifoSemMPMCQueue T)) ∧
    sumSizes (⟨sem, s.queues_.set i
        { s.queues_[i] with items := s.queues_[i].items ++ [item] }⟩ :
        PriorityLifoSemMPMCQueue T) = sumSizes s + 1 := by
  refine ⟨?_, ?_, ?_⟩
  · exact map_set_same _ _ i hi _ rfl
  · intro hb q hq
    rcases List.mem_or_eq_of_mem_set hq with hq | hq
    · exact hb q hq
    · subst hq
      show (s.queues_[i].items ++ [item]).length ≤ s.queues_[i].capacity
      simp only [List.length_append, List.length_singleton]
      omega
  · have h := sum_map_set MPMCQueue.size s.queues_ i hi
      { s.queues_[i] with items := s.queues_[i].items ++ [item] }
    unfold sumSizes
    simp only [MPMCQueue.size, List.length_append, List.length_singleton] at h ⊢
    omega

theorem sumSizes_eq_zero_of_all_empty (s : PriorityLifoSemMPMCQueue T)
    (h : ∀ q ∈ s.queues_, q.items = []) : sumSizes s = 0 := by
  unfold sumSizes
  apply List.sum_eq_zero
  intro n hn
  obtain ⟨q, hq, rfl⟩ := List.mem_map.mp hn
  simp [MPMCQueue.size, h q hq]

/-- The two ways a scan can end. -/
theorem nonBlockingTake_cases (s : PriorityLifoSemMPMCQueue T) :
    ((∀ q ∈ s.queues_, q.items = []) ∧ nonBlockingTake s = (none, s)) ∨
    ∃ i, ∃ hi : i < s.queues_.length, ∃ x rest,
      s.queues_[i].items = x :: rest ∧
      (∀ j (hj : j < s.queues_.length), i < j → s.queues_[j].items = []) ∧
      nonBlockingTake s =
        (some x, { s with queues_ := s.queues_.set i { s.queues_[i] with items := rest } }) := by
  rcases highest_nonempty s.queues_ s.queues_.length with hall | ⟨i, hi, x, rest, _, hx, hempty⟩
  · left
    have hscan := scanFrom_all_empty s.queues_.length s.queues_ hall
    refine ⟨?_, by rw [nonBlockingTake_eq, hscan]⟩
    intro q hq
    obtain ⟨j, hj, rfl⟩ := List.getElem_of_mem hq
    exact hall j hj hj
  · right
    have hscan := scanFrom_found s.queues_.length s.queues_ i hi hi x rest hx
      (fun j hj hij _ => hempty j hj hij hj)
    exact ⟨i, hi, x, rest, hx, fun j hj hij => hempty j hj hij hj,
      by rw [nonBlockingTake_eq, hscan]⟩

/-- On an empty queue `take` uses up the semaphore and then waits for ever. -/
theorem takeLoop_of_all_empty (fuel : Nat) (s : PriorityLifoSemMPMCQueue T)
    (hall : ∀ q ∈ s.queues_, q.items = []) (hfuel : s.sem_.value < fuel) :
    takeLoop fuel s = (.blocked, { s with sem_ := ⟨0⟩ }) := by
  induction fuel generalizing s with
  | zero => omega
  | succ fuel ih =>
    have hnb : nonBlockingTake s = (none, s) := by
      rcases nonBlockingTake_cases s with ⟨_, h⟩ | ⟨i, hi, x, rest, hx, _, _⟩
      · exact h
      · have := hall _ (List.getElem_mem hi)
        rw [hx] at this
        cases this
    unfold takeLoop
    rw [hnb]
    obtain ⟨⟨v⟩, qs⟩ := s
    cases v with
    | zero => rfl
    | succ v =>
      simp only [LifoSem.wait]
      exact ih ⟨⟨v⟩, qs⟩ hall (by simpa using hfuel)

/-- On an empty queue `try_take_for` uses up the semaphore and then times out. -/
theorem tryTakeLoop_of_all_empty (fuel : Nat) (s : PriorityLifoSemMPMCQueue T)
    (hall : ∀ q ∈ s.queues_, q.items = []) (hfuel : s.sem_.value < fuel) :
    tryTakeLoop fuel s = (.none, { s with sem_ := ⟨0⟩ }) := by
  induction fuel generalizing s with
  | zero => omega
  | succ fuel ih =>
    have hnb : nonBlockingTake s = (none, s) := by
      rcases nonBlockingTake_cases s with ⟨_, h⟩ | ⟨i, hi, x, rest, hx, _, _⟩
      · exact h
      · have := hall _ (List.getElem_mem hi)
        rw [hx] at this
        cases this
    unfold tryTakeLoop
    rw [hnb]
    obtain ⟨⟨v⟩, qs⟩ := s
    cases v with
    | zero => rfl
    | succ v =>
      simp only [LifoSem.try_wait_for]
      exact ih ⟨⟨v⟩, qs⟩ hall (by simpa using hfuel)

theorem try_take_for_of_scan_some (s s' : PriorityLifoSemMPMCQueue T) (x : T)
    (h : nonBlockingTake s = (some x, s')) : try_take_for s = (.returned x, s') := by
  unfold try_take_for tryTakeLoop
  rw [h]

/-- What the event reported by a call says about the change of state. -/
theorem callOp_effect (k : QueueBehaviorIfFull) (s s' : PriorityLifoSemMPMCQueue T)
    (op : Op T) (e : Event T) (h : callOp k s op = some (e, s')) :
    capacities s' = capacities s ∧ (Bounded s → Bounded s') ∧
    (e = .enqueued → sumSizes s' = sumSizes s + 1 ∧ s'.sem_.value = s.sem_.value + 1) ∧
    (e = .rejected → s' = s) ∧
    (∀ x, e = .dequeued x → sumSizes s = sumSizes s' + 1 ∧ s'.sem_ = s.sem_) ∧
    (e = .timedOut → sumSizes s = 0 ∧ sumSizes s' = 0 ∧ s'.sem_.value = 0) ∧
    (e = .nothing → s' = s) := by
  cases op with
  | addWithPriority item p =>
    simp only [callOp] at h
    by_cases hl : queueIndex s.getNumPriorities p < s.queues_.length
    · by_cases hroom : s.queues_[queueIndex s.getNumPriorities p].items.length <
          s.queues_[queueIndex s.getNumPriorities p].capacity
      · rw [addWithPriority_of_room k s item p hl hroom] at h
        simp only [Option.some.injEq, Prod.mk.injEq] at h
        obtain ⟨rfl, rfl⟩ := h
        obtain ⟨hc, hb, hs⟩ := push_effect s ⟨s.sem_.value + 1⟩ _ hl item hroom
        refine ⟨hc, hb, fun _ => ⟨hs, rfl⟩, ?_, ?_, ?_, ?_⟩
        · intro h; cases h
        · intro x h; cases h
        · intro h; cases h
        · intro h; cases h
      · cases k
        · rw [addWithPriority_throw_of_full s item p hl (Nat.le_of_not_lt hroom)] at h
          simp only [Option.some.injEq, Prod.mk.injEq] at h
          obtain ⟨rfl, rfl⟩ := h
          refine ⟨rfl, fun hb => hb, ?_, fun _ => rfl, ?_, ?_, ?_⟩
          · intro h; cases h
          · intro x h; cases h
          · intro h; cases h
          · intro h; cases h
        · rw [addWithPriority_block_of_full s item p hl (Nat.le_of_not_lt hroom)] at h
          cases h
    · rw [addWithPriority_of_check_failed k s item p hl] at h
      cases h
  | take =>
    unfold callOp at h
    rcases nonBlockingTake_cases s with ⟨hall, _⟩ | ⟨i, hi, x, rest, hx, _, hnb⟩
    · have ht : take s = (.blocked, { s with sem_ := ⟨0⟩ }) :=
        takeLoop_of_all_empty _ s hall (Nat.lt_succ_self _)
      rw [ht] at h
      cases h
    · rw [take_of_scan_some _ _ _ hnb] at h
      simp only [Option.some.injEq, Prod.mk.injEq] at h
      obtain ⟨rfl, rfl⟩ := h
      obtain ⟨hc, hb, hs⟩ := pop_effect s i hi x rest hx
      refine ⟨hc, hb, ?_, ?_, fun _ _ => ⟨hs, rfl⟩, ?_, ?_⟩
      · intro h; cases h
      · intro h; cases h
      · intro h; cases h
      · intro h; cases h
  | try_take_for =>
    unfold callOp at h
    rcases nonBlockingTake_cases s with ⟨hall, _⟩ | ⟨i, hi, x, rest, hx, _, hnb⟩
    · have ht : try_take_for s = (.none, { s with sem_ := ⟨0⟩ }) :=
        tryTakeLoop_of_all_empty _ s hall (Nat.lt_succ_self _)
      rw [ht] at h
      simp only [Option.some.injEq, Prod.mk.injEq] at h
      obtain ⟨rfl, rfl⟩ := h
      have hz := sumSizes_eq_zero_of_all_empty s hall
      refine ⟨rfl, fun hb => hb, ?_, ?_, ?_, fun _ => ⟨hz, hz, rfl⟩, ?_⟩
      · intro h; cases h
      · intro h; cases h
      · intro x h; cases h
      · intro h; cases h
    · rw [try_take_for_of_scan_some _ _ _ hnb] at h
      simp only [Option.some.injEq, Prod.mk.injEq] at h
      obtain ⟨rfl, rfl⟩ := h
      obtain ⟨hc, hb, hs⟩ := pop_effect s i hi x rest hx
      refine ⟨hc, hb, ?_, ?_, fun _ _ => ⟨hs, rfl⟩, ?_, ?_⟩
      · intro h; cases h
      · intro h; cases h
      · intro h; cases h
      · intro h; cases h
  | nonBlockingTake =>
    unfold callOp at h
    rcases nonBlockingTake_cases s with ⟨_, hnb⟩ | ⟨i, hi, x, rest, hx, _, hnb⟩
    · rw [hnb] at h
      simp only [Option.some.injEq, Prod.mk.injEq] at h
      obtain ⟨rfl, rfl⟩ := h
      refine ⟨rfl, fun hb => hb, ?_, ?_, ?_, ?_, fun _ => rfl⟩
      · intro h; cases h
      · intro h; cases h
      · intro x h; cases h
      · intro h; cases h
    · rw [hnb] at h
      simp only [Option.some.injEq, Prod.mk.injEq] at h
      obtain ⟨rfl, rfl⟩ := h
      obtain ⟨hc, hb, hs⟩ := pop_effect s i hi x rest hx
      refine ⟨hc, hb, ?_, ?_, fun _ _ => ⟨hs, rfl⟩, ?_, ?_⟩
      · intro h; cases h
      · intro h; cases h
      · intro h; cases h
      · intro h; cases h

theorem runOps_cons (k : QueueBehaviorIfFull) (op : Op T) (ops : List (Op T))
    (s s'' : PriorityLifoSemMPMCQueue T) (es : List (Event T))
    (h : runOps k (op :: ops) s = some (es, s'')) :
    ∃ e s' es', callOp k s op = some (e, s') ∧ runOps k ops s' = some (es', s'') ∧
      es = e :: es' := by
  unfold runOps at h
  cases hc : callOp k s op with
  | none => rw [hc] at h; cases h
  | some r =>
    obtain ⟨e, s'⟩ := r
    rw [hc] at h
    simp only at h
    cases hr : runOps k ops s' with
    | none => rw [hr] at h; cases h
    | some r' =>
      obtain ⟨es', s3⟩ := r'
      rw [hr] at h
      simp only [Option.some.injEq, Prod.mk.injEq] at h
      obtain ⟨rfl, rfl⟩ := h
      exact ⟨e, s', es', rfl, hr, rfl⟩

/-- Along a run, capacities stay, buckets stay within their capacity, and the number of
pending items moves with the successful enqueues and dequeues. -/
theorem runOps_conservation (k : QueueBehaviorIfFull) (ops : List (Op T))
    (s s' : PriorityLifoSemMPMCQueue T) (es : List (Event T))
    (h : runOps k ops s = some (es, s')) :
    capacities s' = capacities s ∧ (Bounded s → Bounded s') ∧
    sumSizes s' + countDequeued es = sumSizes s + countEnqueued es := by
  induction ops generalizing s es with
  | nil =>
    unfold runOps at h
    simp only [Option.some.injEq, Prod.mk.injEq] at h
    obtain ⟨rfl, rfl⟩ := h
    exact ⟨rfl, fun hb => hb, rfl⟩
  | cons op ops ih =>
    obtain ⟨e, s1, es', hc, hr, rfl⟩ := runOps_cons k op ops s s' es h
    obtain ⟨hcap, hb, hsum⟩ := ih s1 es' hr
    obtain ⟨hcap1, hb1, henq, hrej, hdeq, hto, hnot⟩ := callOp_effect k s s1 op e hc
    refine ⟨hcap.trans hcap1, fun h0 => hb (hb1 h0), ?_⟩
    cases e with
    | enqueued =>
      have := (henq rfl).1
      simp only [countEnqueued, countDequeued]
      omega
    | rejected =>
      have := hrej rfl
      subst this
      simpa only [countEnqueued, countDequeued] using hsum
    | dequeued x =>
      have := (hdeq x rfl).1
      simp only [countEnqueued, countDequeued]
      omega
    | timedOut =>
      have := hto rfl
      simp only [countEnqueued, countDequeued]
      omega
    | nothing =>
      have := hnot rfl
      subst this
      simpa only [countEnqueued, countDequeued] using hsum

/-- Along a run, the semaphore's value exceeds the number of pending items by the number of
successful dequeues since the last time-out. -/
theorem runOps_semaphore (k : QueueBehaviorIfFull) (ops : List (Op T))
    (s s' : PriorityLifoSemMPMCQueue T) (es : List (Event T)) (acc : Nat)
    (hs : s.sem_.value = sumSizes s + acc)
    (h : runOps k ops s = some (es, s')) :
    s'.sem_.value = sumSizes s' + dequeuedSinceTimeout acc es := by
  induction ops generalizing s es acc with
  | nil =>
    unfold runOps at h
    simp only [Option.some.injEq, Prod.mk.injEq] at h
    obtain ⟨rfl, rfl⟩ := h
    simpa only [dequeuedSinceTimeout] using hs
  | cons op ops ih =>
    obtain ⟨e, s1, es', hc, hr, rfl⟩ := runOps_cons k op ops s s' es h
    obtain ⟨_, _, henq, hrej, hdeq, hto, hnot⟩ := callOp_effect k s s1 op e hc
    cases e with
    | enqueued =>
      obtain ⟨h1, h2⟩ := henq rfl
      simp only [dequeuedSinceTimeout]
      exact ih s1 es' acc (by omega) hr
    | rejected =>
      have := hrej rfl
      subst this
      simp only [dequeuedSinceTimeout]
      exact ih s1 es' acc hs hr
    | dequeued x =>
      obtain ⟨h1, h2⟩ := hdeq x rfl
      simp only [dequeuedSinceTimeout]
      exact ih s1 es' (acc + 1) (by rw [h2]; omega) hr
    | timedOut =>
      obtain ⟨_, h2, h3⟩ := hto rfl
      simp only [dequeuedSinceTimeout]
      exact ih s1 es' 0 (by omega) hr
    | nothing =>
      have := hnot rfl
      subst this
      simp only [dequeuedSinceTimeout]
      exact ih s1 es' acc hs hr

/-! ### Fresh queues, `size()` and the semaphore along a run -/

theorem foldl_emplace_back (caps : List Nat) (init : List (MPMCQueue T)) :
    caps.foldl (fun queues capacity => queues ++ [MPMCQueue.mk0 capacity]) init =
      init ++ caps.map MPMCQueue.mk0 := by
  induction caps generalizing init with
  | nil => simp
  | cons c caps ih => simp [ih]

/-- The per-level constructor returns exactly when the length is in `1..255`, and then the
queue has one empty bucket per capacity, in order, and a semaphore at zero. -/
theorem mkCapacities_ok (caps : List Nat) (s0 : PriorityLifoSemMPMCQueue T)
    (h : mkCapacities caps = .ok s0) :
    s0 = ⟨⟨0⟩, caps.map MPMCQueue.mk0⟩ ∧ 1 ≤ caps.length ∧ caps.length ≤ 255 := by
  unfold mkCapacities at h
  by_cases h1 : 0 < caps.length
  · by_cases h2 : caps.length < 256
    · rw [if_pos h1, if_pos h2, foldl_emplace_back] at h
      simp only [List.nil_append, CtorResult.ok.injEq] at h
      exact ⟨h.symm, h1, by omega⟩
    · rw [if_pos h1, if_neg h2] at h
      cases h
  · rw [if_neg h1] at h
    cases h

/-- For `1 ≤ numPriorities ≤ 127` the uniform constructor builds the queue that the per-level
constructor builds from `numPriorities` equal capacities. -/
theorem mkUniform_eq_mkCapacities (n c fuel : Nat) (h1 : 1 ≤ n) (h2 : n ≤ 127)
    (hfuel : n < fuel) :
    mkUniform (T := T) fuel n c = mkCapacities (List.replicate n c) := by
  rw [mkUniform_small n c fuel h1 h2 hfuel]
  unfold mkCapacities
  rw [foldl_emplace_back]
  simp only [List.length_replicate, List.nil_append, List.map_replicate]
  rw [if_pos (by omega), if_pos (by omega)]

theorem fresh_facts (caps : List Nat) :
    capacities (⟨⟨0⟩, caps.map MPMCQueue.mk0⟩ : PriorityLifoSemMPMCQueue T) = caps ∧
    Bounded (⟨⟨0⟩, caps.map MPMCQueue.mk0⟩ : PriorityLifoSemMPMCQueue T) ∧
    sumSizes (⟨⟨0⟩, caps.map MPMCQueue.mk0⟩ : PriorityLifoSemMPMCQueue T) = 0 := by
  refine ⟨?_, ?_, ?_⟩
  · unfold capacities
    simp only [List.map_map]
    conv => rhs; rw [← List.map_id caps]
    rfl
  · intro q hq
    obtain ⟨c, _, rfl⟩ := List.mem_map.mp hq
    exact Nat.zero_le _
  · apply sumSizes_eq_zero_of_all_empty
    intro q hq
    obtain ⟨c, _, rfl⟩ := List.mem_map.mp hq
    rfl

theorem foldl_addSizeT (l : List (MPMCQueue T)) (acc : Nat)
    (h : acc + (l.map MPMCQueue.size).sum < 18446744073709551616) :
    l.foldl (fun acc q => addSizeT acc q.size) acc = acc + (l.map MPMCQueue.size).sum := by
  induction l generalizing acc with
  | nil => simp
  | cons q l ih =>
    simp only [List.map_cons, List.sum_cons] at h
    simp only [List.foldl_cons, List.map_cons, List.sum_cons]
    have hadd : addSizeT acc q.size = acc + q.size := by
      unfold addSizeT
      omega
    rw [hadd, ih (acc + q.size) (by omega)]
    omega

theorem sumSizes_le_capacities (l : List (MPMCQueue T))
    (h : ∀ q ∈ l, q.items.length ≤ q.capacity) :
    (l.map MPMCQueue.size).sum ≤ (l.map (fun q => q.capacity)).sum := by
  induction l with
  | nil => simp
  | cons q l ih =>
    have h1 := h q (List.mem_cons_self q l)
    have h2 := ih (fun q' hq' => h q' (List.mem_cons_of_mem q hq'))
    simp only [List.map_cons, List.sum_cons, MPMCQueue.size] at h2 ⊢
    omega

/-- When the capacities add up to less than `2 ^ 64`, `size()` is the number of pending
items. -/
theorem size_eq_sumSizes (s : PriorityLifoSemMPMCQueue T) (hb : Bounded s)
    (hcap : (capacities s).sum < 18446744073709551616) : s.size = sumSizes s := by
  have hle := sumSizes_le_capacities s.queues_ hb
  unfold capacities at hcap
  unfold size sumSizes
  rw [foldl_addSizeT s.queues_ 0 (by omega)]
  omega

/-- C5: on a queue fresh from its constructor (capacities adding up to less than `2 ^ 64`, as
the pre-allocated buckets force), after any sequence of calls that came back with `k`
successful enqueues and `j` successful dequeues, `j ≤ k` and `size()` returns `k - j`, the
sum of the sizes of the buckets. -/
theorem size_is_enqueued_minus_dequeued (k : QueueBehaviorIfFull) (caps : List Nat)
    (s0 : PriorityLifoSemMPMCQueue T) (hfresh : mkCapacities caps = .ok s0)
    (hmem : caps.sum < 18446744073709551616) (ops : List (Op T)) (es : List (Event T))
    (s : PriorityLifoSemMPMCQueue T) (hrun : runOps k ops s0 = some (es, s)) :
    countDequeued es ≤ countEnqueued es ∧
    s.size = countEnqueued es - countDequeued es ∧
    s.size = sumSizes s := by
  obtain ⟨rfl, _, _⟩ := mkCapacities_ok caps s0 hfresh
  obtain ⟨hc0, hb0, hz0⟩ := fresh_facts (T := T) caps
  obtain ⟨hcap, hb, hsum⟩ := runOps_conservation k ops _ s es hrun
  have hsize := size_eq_sumSizes s (hb hb0) (by rw [hcap, hc0]; exact hmem)
  rw [hz0] at hsum
  refine ⟨by omega, by omega, hsize⟩

/-- C5, on three levels of capacity 2: two enqueues, a rejected third enqueue at the same
level, one dequeue, and a scan; `size()` is `2 - 1`. -/
theorem size_is_enqueued_minus_dequeued_witness :
    mkCapacities [2, 2, 2] = CtorResult.ok (⟨⟨0⟩, [⟨2, []⟩, ⟨2, []⟩, ⟨2, []⟩]⟩ :
      PriorityLifoSemMPMCQueue Nat) ∧
    runOps .THROW
        [.addWithPriority 10 HI_PRI, .addWithPriority 11 HI_PRI, .addWithPriority 12 HI_PRI,
          .take]
        (⟨⟨0⟩, [⟨2, []⟩, ⟨2, []⟩, ⟨2, []⟩]⟩ : PriorityLifoSemMPMCQueue Nat) =
      some ([.enqueued, .enqueued, .rejected, .dequeued 10],
        ⟨⟨2⟩, [⟨2, []⟩, ⟨2, []⟩, ⟨2, [11]⟩]⟩) ∧
    (⟨⟨2⟩, [⟨2, []⟩, ⟨2, []⟩, ⟨2, [11]⟩]⟩ : PriorityLifoSemMPMCQueue Nat).size = 2 - 1 :=
  ⟨by decide, by decide,
    (size_is_enqueued_minus_dequeued .THROW [2, 2, 2]
      (⟨⟨0⟩, [⟨2, []⟩, ⟨2, []⟩, ⟨2, []⟩]⟩ : PriorityLifoSemMPMCQueue Nat) (by decide)
      (by decide)
      [.addWithPriority 10 HI_PRI, .addWithPriority 11 HI_PRI, .addWithPriority 12 HI_PRI,
        .take]
      [.enqueued, .enqueued, .rejected, .dequeued 10]
      ⟨⟨2⟩, [⟨2, []⟩, ⟨2, []⟩, ⟨2, [11]⟩]⟩ (by decide)).2.1⟩

/-- C6 as stated fails: on a fresh queue with one level of capacity 1, after a completed
enqueue and a completed `take` the semaphore's value is 1 while no item is pending. -/
theorem semaphore_exceeds_sizes_after_take :
    mkCapacities [1] = CtorResult.ok (⟨⟨0⟩, [⟨1, []⟩]⟩ : PriorityLifoSemMPMCQueue Nat) ∧
    runOps .THROW [.addWithPriority 7 MID_PRI, .take]
        (⟨⟨0⟩, [⟨1, []⟩]⟩ : PriorityLifoSemMPMCQueue Nat) =
      some ([.enqueued, .dequeued 7], ⟨⟨1⟩, [⟨1, []⟩]⟩) ∧
    (⟨⟨1⟩, [⟨1, []⟩]⟩ : PriorityLifoSemMPMCQueue Nat).sem_.value = 1 ∧
    sumSizes (⟨⟨1⟩, [⟨1, []⟩]⟩ : PriorityLifoSemMPMCQueue Nat) = 0 := by
  decide

/-- C6 (amended): on a fresh queue, after any sequence of calls that came back, the
semaphore's value is the sum of the bucket sizes plus the number of successful dequeues since
the last `try_take_for` that timed out (since construction when there is none): a successful
enqueue posts once, a successful dequeue returns from its scan without waiting, and a
`try_take_for` that finds nothing brings the value to zero before it times out. -/
theorem semaphore_is_sizes_plus_unwaited_dequeues (k : QueueBehaviorIfFull) (caps : List Nat)
    (s0 : PriorityLifoSemMPMCQueue T) (hfresh : mkCapacities caps = .ok s0)
    (ops : List (Op T)) (es : List (Event T)) (s : PriorityLifoSemMPMCQueue T)
    (hrun : runOps k ops s0 = some (es, s)) :
    s.sem_.value = sumSizes s + dequeuedSinceTimeout 0 es := by
  obtain ⟨rfl, _, _⟩ := mkCapacities_ok caps s0 hfresh
  obtain ⟨_, _, hz0⟩ := fresh_facts (T := T) caps
  exact runOps_semaphore k ops _ s es 0 (by rw [hz0]) hrun

/-- C6 (amended), on one level of capacity 2: after enqueue, enqueue, take the value is
`1 + 1`; a time-out on the emptied queue brings it back to `0 + 0`. -/
theorem semaphore_is_sizes_plus_unwaited_dequeues_witness :
    runOps .THROW [.addWithPriority 7 MID_PRI, .addWithPriority 8 MID_PRI, .take]
        (⟨⟨0⟩, [⟨2, []⟩]⟩ : PriorityLifoSemMPMCQueue Nat) =
      some ([.enqueued, .enqueued, .dequeued 7], ⟨⟨2⟩, [⟨2, [8]⟩]⟩) ∧
    runOps .THROW
        [.addWithPriority 7 MID_PRI, .addWithPriority 8 MID_PRI, .take, .take, .try_take_for]
        (⟨⟨0⟩, [⟨2, []⟩]⟩ : PriorityLifoSemMPMCQueue Nat) =
      some ([.enqueued, .enqueued, .dequeued 7, .dequeued 8, .timedOut], ⟨⟨0⟩, [⟨2, []⟩]⟩) ∧
    (⟨⟨2⟩, [⟨2, [8]⟩]⟩ : PriorityLifoSemMPMCQueue Nat).sem_.value =
      sumSizes (⟨⟨2⟩, [⟨2, [8]⟩]⟩ : PriorityLifoSemMPMCQueue Nat) +
        dequeuedSinceTimeout 0 [(.enqueued : Event Nat), .enqueued, .dequeued 7] :=
  ⟨by decide, by decide,
    semaphore_is_sizes_plus_unwaited_dequeues .THROW [2]
      (⟨⟨0⟩, [⟨2, []⟩]⟩ : PriorityLifoSemMPMCQueue Nat) (by decide)
      [.addWithPriority 7 MID_PRI, .addWithPriority 8 MID_PRI, .take]
      [.enqueued, .enqueued, .dequeued 7] ⟨⟨2⟩, [⟨2, [8]⟩]⟩ (by decide)⟩

/-! ### Ordering by descending level -/

/-- The `m` lowest levels of a keyed list, highest first: one more level goes in front. -/
theorem descending_succ {α : Type} (f : α → Nat) (l : List α) (m : Nat) :
    (List.range (m + 1)).reverse.flatMap (fun i => l.filter (fun e => f e = i)) =
      l.filter (fun e => f e = m) ++
        (List.range m).reverse.flatMap (fun i => l.filter (fun e => f e = i)) := by
  rw [List.range_succ, List.reverse_append]
  simp

theorem mem_descending {α : Type} (f : α → Nat) (l : List α) (m : Nat) (a : α)
    (h : a ∈ (List.range m).reverse.flatMap (fun i => l.filter (fun e => f e = i))) :
    a ∈ l ∧ f a < m := by
  simp only [List.mem_flatMap, List.mem_reverse, List.mem_range, List.mem_filter,
    decide_eq_true_eq] at h
  obtain ⟨i, hi, ha, rfl⟩ := h
  exact ⟨ha, hi⟩

theorem descending_pairwise {α : Type} (f : α → Nat) (l : List α) (m : Nat) :
    ((List.range m).reverse.flatMap (fun i => l.filter (fun e => f e = i))).Pairwise
      (fun a b => f b ≤ f a) := by
  induction m with
  | zero => simp
  | succ m ih =>
    rw [descending_succ, List.pairwise_append]
    refine ⟨?_, ih, ?_⟩
    · apply List.Pairwise.imp_of_mem (R := fun _ _ => True)
      · intro a b ha hb _
        simp only [List.mem_filter, decide_eq_true_eq] at ha hb
        omega
      · exact List.pairwise_of_forall (fun _ _ => trivial)
    · intro a ha b hb
      simp only [List.mem_filter, decide_eq_true_eq] at ha
      have := (mem_descending f l m b hb).2
      omega

theorem filter_append_filter_perm {α : Type} (p q r : α → Bool) (l : List α)
    (hdisj : ∀ a ∈ l, ¬ (p a = true ∧ q a = true))
    (hr : ∀ a ∈ l, r a = (p a || q a)) :
    (l.filter p ++ l.filter q).Perm (l.filter r) := by
  induction l with
  | nil => simp
  | cons a l ih =>
    have ih' := ih (fun b hb => hdisj b (List.mem_cons_of_mem a hb))
      (fun b hb => hr b (List.mem_cons_of_mem a hb))
    have hd := hdisj a (List.mem_cons_self a l)
    have hra := hr a (List.mem_cons_self a l)
    cases hp : p a <;> cases hq : q a <;> simp only [hp, hq, Bool.or_self, Bool.or_true,
      Bool.or_false, Bool.true_or, Bool.false_or] at hra hd
    · simp only [List.filter_cons, hp, hq, hra]
      exact ih'
    · simp only [List.filter_cons, hp, hq, hra]
      exact (List.perm_middle).trans (List.Perm.cons a ih')
    · simp only [List.filter_cons, hp, hq, hra]
      exact List.Perm.cons a ih'
    · exact absurd ⟨trivial, trivial⟩ hd

theorem descending_perm {α : Type} (f : α → Nat) (l : List α) (m : Nat) :
    ((List.range m).reverse.flatMap (fun i => l.filter (fun e => f e = i))).Perm
      (l.filter (fun e => f e < m)) := by
  induction m with
  | zero => simp
  | succ m ih =>
    rw [descending_succ]
    refine ((List.Perm.append_left _ ih).trans ?_)
    apply filter_append_filter_perm
    · intro a _ h
      simp only [decide_eq_true_eq] at h
      omega
    · intro a _
      by_cases h1 : f a = m <;> by_cases h2 : f a < m <;> simp [h1, h2] <;> omega

theorem descending_filter {α : Type} (f : α → Nat) (l : List α) (m i : Nat) :
    ((List.range m).reverse.flatMap (fun j => l.filter (fun e => f e = j))).filter
        (fun e => f e = i) =
      if i < m then l.filter (fun e => f e = i) else [] := by
  induction m with
  | zero => simp
  | succ m ih =>
    rw [descending_succ, List.filter_append, ih, List.filter_filter]
    by_cases h1 : i = m
    · subst h1
      simp
    · have hnil : l.filter (fun a => (decide (f a = i) && decide (f a = m))) = [] := by
        rw [List.filter_eq_nil_iff]
        intro a _
        simp only [Bool.and_eq_true, decide_eq_true_eq, not_and]
        omega
      rw [hnil]
      by_cases h2 : i < m
      · simp [h2, Nat.lt_succ_of_lt h2]
      · have h3 : ¬ i < m + 1 := by omega
        simp [h2, h3]

/-- `byDescendingLevel` is a stable sort by descending level: a permutation of the input,
levels never increasing, and the pairs of each level in their input order. -/
theorem byDescendingLevel_stable_sort (n : Nat) (h1 : 1 ≤ n) (h2 : n ≤ 255)
    (input : List (T × int8_t)) :
    (byDescendingLevel n input).Perm input ∧
    (byDescendingLevel n input).Pairwise (fun a b => queueIndex n b.2 ≤ queueIndex n a.2) ∧
    ∀ i, atLevel n (byDescendingLevel n input) i = atLevel n input i := by
  refine ⟨?_, ?_, ?_⟩
  · have h := descending_perm (fun e : T × int8_t => queueIndex n e.2) input n
    have hall : input.filter (fun e => queueIndex n e.2 < n) = input := by
      rw [List.filter_eq_self]
      intro a _
      simpa using queueIndex_lt n h1 h2 a.2
    rw [hall] at h
    exact h
  · exact descending_pairwise (fun e : T × int8_t => queueIndex n e.2) input n
  · intro i
    have h := descending_filter (fun e : T × int8_t => queueIndex n e.2) input n i
    unfold atLevel byDescendingLevel atLevel
    rw [h]
    by_cases hi : i < n
    · simp only [hi, if_true]
    · simp only [hi, if_false]
      symm
      rw [List.filter_eq_nil_iff]
      intro a _
      have := queueIndex_lt n h1 h2 a.2
      simp only [decide_eq_true_eq]
      omega

/-! ### Enqueuing a list, then draining -/

theorem filled_nil (caps : List Nat) :
    filled (T := T) caps [] = caps.map MPMCQueue.mk0 := by
  apply List.ext_getElem
  · simp [filled]
  · intro i h1 h2
    simp [filled, atLevel, MPMCQueue.mk0]

theorem filled_length (caps : List Nat) (done : List (T × int8_t)) :
    (filled caps done).length = caps.length := by
  simp [filled]

theorem filled_getElem (caps : List Nat) (done : List (T × int8_t)) (i : Nat)
    (h : i < (filled caps done).length) (h' : i < caps.length) :
    (filled caps done)[i] = ⟨caps[i], (atLevel caps.length done i).map Prod.fst⟩ := by
  simp [filled]

theorem filled_snoc (caps : List Nat) (done : List (T × int8_t)) (item : T) (p : int8_t)
    (hl : queueIndex caps.length p < (filled caps done).length) :
    (filled caps done).set (queueIndex caps.length p)
        { (filled caps done)[queueIndex caps.length p] with
          items := (filled caps done)[queueIndex caps.length p].items ++ [item] } =
      filled caps (done ++ [(item, p)]) := by
  apply List.ext_getElem
  · simp [filled]
  · intro j h1 h2
    have hj : j < caps.length := by simpa [filled] using h2
    rw [List.getElem_set]
    by_cases hq : queueIndex caps.length p = j
    · subst hq
      simp [filled, atLevel, List.filter_append]
    · simp [filled, atLevel, List.filter_append, hq]

/-- When no level receives more than its capacity, every enqueue succeeds and level `i`
ends up with the items sent to it, in order. -/
theorem enqueueAll_filled (k : QueueBehaviorIfFull) (caps : List Nat) (h1 : 1 ≤ caps.length)
    (h2 : caps.length ≤ 255) (rest done : List (T × int8_t))
    (hfit : ∀ i (hi : i < caps.length),
      (atLevel caps.length (done ++ rest) i).length ≤ caps[i]) :
    enqueueAll k rest ⟨⟨done.length⟩, filled caps done⟩ =
      some ⟨⟨(done ++ rest).length⟩, filled caps (done ++ rest)⟩ := by
  induction rest generalizing done with
  | nil => simp [enqueueAll]
  | cons e rest ih =>
    obtain ⟨item, p⟩ := e
    have hlen : (filled caps done).length = caps.length := filled_length caps done
    have hnum : getNumPriorities (⟨⟨done.length⟩, filled caps done⟩ :
        PriorityLifoSemMPMCQueue T) = caps.length := by
      rw [getNumPriorities_eq _ (by simpa [hlen] using h2)]
      exact hlen
    have hlt : queueIndex caps.length p < caps.length := queueIndex_lt _ h1 h2 p
    have hl : queueIndex (getNumPriorities (⟨⟨done.length⟩, filled caps done⟩ :
        PriorityLifoSemMPMCQueue T)) p <
        (⟨⟨done.length⟩, filled caps done⟩ : PriorityLifoSemMPMCQueue T).queues_.length := by
      rw [hnum]; simpa [hlen] using hlt
    have hfit' := hfit (queueIndex caps.length p) hlt
    have hroom : (atLevel caps.length done (queueIndex caps.length p)).length <
        caps[queueIndex caps.length p] := by
      simp only [atLevel, List.filter_append, List.filter_cons, List.length_append,
        decide_True, if_true, List.length_cons] at hfit' ⊢
      omega
    have hadd := addWithPriority_of_room k ⟨⟨done.length⟩, filled caps done⟩ item p hl
      (by
        simp only [hnum]
        rw [filled_getElem caps done _ (by simpa [hlen] using hlt) hlt]
        simpa using hroom)
    simp only [hnum] at hadd
    rw [filled_snoc caps done item p (by simpa [hlen] using hlt)] at hadd
    unfold enqueueAll
    rw [hadd]
    have hstep := ih (done ++ [(item, p)]) (by simpa [List.append_assoc] using hfit)
    simp only [List.length_append, List.length_singleton, List.append_assoc,
      List.singleton_append] at hstep
    simpa using hstep

theorem flatMap_items_of_all_empty (l : List (MPMCQueue T))
    (h : ∀ q ∈ l, q.items = []) : l.flatMap (fun q => q.items) = [] := by
  induction l with
  | nil => rfl
  | cons q l ih =>
    rw [List.flatMap_cons, h q (List.mem_cons_self q l),
      ih (fun q' hq' => h q' (List.mem_cons_of_mem q hq'))]
    rfl

/-- Replacing bucket `i`, above which every bucket is empty, changes the pending items read
from the top level down only by the contents of that bucket. -/
theorem pending_split (qs : List (MPMCQueue T)) (i : Nat) (hi : i < qs.length)
    (hempty : ∀ j (hj : j < qs.length), i < j → qs[j].items = []) (b : MPMCQueue T) :
    (qs.set i b).reverse.flatMap (fun q => q.items) =
      b.items ++ (qs.take i).reverse.flatMap (fun q => q.items) := by
  have hdrop : (qs.drop (i + 1)).reverse.flatMap (fun q => q.items) = [] := by
    apply flatMap_items_of_all_empty
    intro q hq
    obtain ⟨j, hj, rfl⟩ := List.getElem_of_mem (List.mem_reverse.mp hq)
    rw [List.getElem_drop]
    exact hempty _ _ (by omega)
  rw [List.set_eq_take_append_cons_drop, if_pos hi]
  simp only [List.reverse_append, List.reverse_cons, List.flatMap_append, List.append_assoc,
    hdrop, List.nil_append, List.flatMap_cons, List.flatMap_nil, List.append_nil]

/-- With enough calls allowed, draining returns the pending items from the top level down,
each level oldest first, and leaves every bucket empty. -/
theorem drain_all (fuel : Nat) (s : PriorityLifoSemMPMCQueue T)
    (hfuel : (s.queues_.reverse.flatMap (fun q => q.items)).length < fuel) :
    drain fuel s = some (s.queues_.reverse.flatMap (fun q => q.items),
      { s with queues_ := s.queues_.map (fun q => { q with items := [] }) }) := by
  induction fuel generalizing s with
  | zero => omega
  | succ fuel ih =>
    unfold drain
    rcases nonBlockingTake_cases s with ⟨hall, hnb⟩ | ⟨i, hi, x, rest, hx, hempty, hnb⟩
    · rw [hnb]
      have hp : s.queues_.reverse.flatMap (fun q => q.items) = [] :=
        flatMap_items_of_all_empty _ (fun q hq => hall q (List.mem_reverse.mp hq))
      have hq : s.queues_.map (fun q => ({ q with items := [] } : MPMCQueue T)) = s.queues_ := by
        conv => rhs; rw [← List.map_id s.queues_]
        apply List.map_congr_left
        intro q hq
        have := hall q hq
        cases q
        simp only [id] at this ⊢
        simp_all
      simp only [hp, hq]
    · rw [hnb]
      have hself := pending_split s.queues_ i hi hempty s.queues_[i]
      rw [set_getElem_same, hx] at hself
      have hnew := pending_split s.queues_ i hi hempty { s.queues_[i] with items := rest }
      simp only at hnew
      have hlen : ((s.queues_.set i { s.queues_[i] with items := rest }).reverse.flatMap
          (fun q => q.items)).length < fuel := by
        rw [hnew]
        rw [hself] at hfuel
        simp only [List.length_append, List.length_cons] at hfuel ⊢
        omega
      have hrec := ih { s with queues_ := s.queues_.set i { s.queues_[i] with items := rest } }
        hlen
      simp only at hrec
      dsimp only
      rw [hrec, hself, hnew]
      have hmap : (s.queues_.set i { s.queues_[i] with items := rest }).map
          (fun q => ({ q with items := [] } : MPMCQueue T)) =
          s.queues_.map (fun q => ({ q with items := [] } : MPMCQueue T)) := by
        rw [List.map_set]
        apply List.ext_getElem
        · simp
        · intro j hj1 hj2
          rw [List.getElem_set]
          by_cases hij : i = j
          · subst hij; simp
          · simp [hij]
      simp only [hmap, List.cons_append]

theorem pending_filled (caps : List Nat) (input : List (T × int8_t)) :
    (filled caps input).reverse.flatMap (fun q => q.items) =
      (byDescendingLevel caps.length input).map Prod.fst := by
  have hmap : (filled caps input).map (fun q => q.items) =
      (List.range caps.length).map (fun i => (atLevel caps.length input i).map Prod.fst) := by
    apply List.ext_getElem
    · simp [filled]
    · intro j h1 h2
      simp [filled]
  unfold byDescendingLevel
  rw [List.map_flatMap]
  unfold List.flatMap
  rw [List.map_reverse, hmap, List.map_reverse]

/-- C2: pairs `(item, priority)` enqueued in order into a fresh queue, no level receiving
more than its capacity, all go in; draining then returns the items stably sorted by
descending level: the output is `byDescendingLevel`, which is a permutation of the input with
never-increasing levels and, level by level, the input order.  Every bucket is empty
afterwards. -/
theorem enqueue_then_drain_is_stable_sort (k : QueueBehaviorIfFull) (caps : List Nat)
    (s0 : PriorityLifoSemMPMCQueue T) (hfresh : mkCapacities caps = .ok s0)
    (input : List (T × int8_t))
    (hfit : ∀ i (hi : i < caps.length), (atLevel caps.length input i).length ≤ caps[i])
    (fuel : Nat) (hfuel : input.length < fuel) :
    ∃ s1 s2, enqueueAll k input s0 = some s1 ∧
      drain fuel s1 = some ((byDescendingLevel caps.length input).map Prod.fst, s2) ∧
      (∀ q ∈ s2.queues_, q.items = []) ∧
      (byDescendingLevel caps.length input).Perm input ∧
      (byDescendingLevel caps.length input).Pairwise
        (fun a b => queueIndex caps.length b.2 ≤ queueIndex caps.length a.2) ∧
      ∀ i, atLevel caps.length (byDescendingLevel caps.length input) i =
        atLevel caps.length input i := by
  obtain ⟨rfl, h1, h2⟩ := mkCapacities_ok caps s0 hfresh
  obtain ⟨hperm, hsorted, hstable⟩ := byDescendingLevel_stable_sort caps.length h1 h2 input
  have henq := enqueueAll_filled k caps h1 h2 input [] (by simpa using hfit)
  simp only [List.length_nil, List.nil_append, filled_nil] at henq
  have hpend := pending_filled caps input
  have hdrain := drain_all fuel (⟨⟨input.length⟩, filled caps input⟩ : PriorityLifoSemMPMCQueue T)
    (by
      simp only [hpend, List.length_map]
      rw [hperm.length_eq]
      exact hfuel)
  simp only [hpend] at hdrain
  refine ⟨_, _, henq, hdrain, ?_, hperm, hsorted, hstable⟩
  intro q hq
  simp only [List.mem_map] at hq
  obtain ⟨q', _, rfl⟩ := hq
  rfl

/-- C2, the scenario of the specification: three levels of capacity 2, enqueue A(+1), B(0),
C(-1), D(+1); the dequeue sequence is A, D, B, C. -/
theorem enqueue_then_drain_is_stable_sort_witness :
    mkCapacities [2, 2, 2] = CtorResult.ok (⟨⟨0⟩, [⟨2, []⟩, ⟨2, []⟩, ⟨2, []⟩]⟩ :
      PriorityLifoSemMPMCQueue Char) ∧
    enqueueAll .THROW
        [('A', ⟨1, by decide, by decide⟩), ('B', ⟨0, by decide, by decide⟩),
          ('C', ⟨-1, by decide, by decide⟩), ('D', ⟨1, by decide, by decide⟩)]
        (⟨⟨0⟩, [⟨2, []⟩, ⟨2, []⟩, ⟨2, []⟩]⟩ : PriorityLifoSemMPMCQueue Char) =
      some ⟨⟨4⟩, [⟨2, ['C']⟩, ⟨2, ['B']⟩, ⟨2, ['A', 'D']⟩]⟩ ∧
    drain 5 (⟨⟨4⟩, [⟨2, ['C']⟩, ⟨2, ['B']⟩, ⟨2, ['A', 'D']⟩]⟩ : PriorityLifoSemMPMCQueue Char) =
      some (['A', 'D', 'B', 'C'], ⟨⟨4⟩, [⟨2, []⟩, ⟨2, []⟩, ⟨2, []⟩]⟩) ∧
    ∃ s1 s2,
      enqueueAll .THROW
          [('A', ⟨1, by decide, by decide⟩), ('B', ⟨0, by decide, by decide⟩),
            ('C', ⟨-1, by decide, by decide⟩), ('D', ⟨1, by decide, by decide⟩)]
          (⟨⟨0⟩, [⟨2, []⟩, ⟨2, []⟩, ⟨2, []⟩]⟩ : PriorityLifoSemMPMCQueue Char) = some s1 ∧
      drain 5 s1 = some (['A', 'D', 'B', 'C'], s2) :=
  ⟨by decide, by decide, by decide,
    (enqueue_then_drain_is_stable_sort .THROW [2, 2, 2]
      (⟨⟨0⟩, [⟨2, []⟩, ⟨2, []⟩, ⟨2, []⟩]⟩ : PriorityLifoSemMPMCQueue Char) (by decide)
      [('A', ⟨1, by decide, by decide⟩), ('B', ⟨0, by decide, by decide⟩),
        ('C', ⟨-1, by decide, by decide⟩), ('D', ⟨1, by decide, by decide⟩)]
      (by decide) 5 (by decide)).elim
      (fun s1 h => h.elim (fun s2 h' => ⟨s1, s2, h'.1, h'.2.1⟩))⟩

/-! ### `try_take_for` -/

/-- Any bound above the semaphore's value gives the loop of `try_take_for` the same result:
the bound chosen in `try_take_for` never cuts the loop short. -/
theorem tryTakeLoop_eq_try_take_for (fuel : Nat) (s : PriorityLifoSemMPMCQueue T)
    (hfuel : s.sem_.value < fuel) : tryTakeLoop fuel s = try_take_for s := by
  rcases nonBlockingTake_cases s with ⟨hall, _⟩ | ⟨i, hi, x, rest, _, _, hnb⟩
  · rw [tryTakeLoop_of_all_empty fuel s hall hfuel]
    exact (tryTakeLoop_of_all_empty _ s hall (Nat.lt_succ_self _)).symm
  · rw [try_take_for_of_scan_some _ _ _ hnb]
    cases fuel with
    | zero => omega
    | succ fuel =>
      unfold tryTakeLoop
      rw [hnb]

/-- C11: in the sequential model `try_take_for` terminates (its loop gives the same result
for every iteration bound above the semaphore's value, never the out-of-fuel one); it returns
`folly::none` iff every bucket is empty at the call, and then leaves the buckets as they were;
otherwise it returns the item, and leaves the state, of a single `nonBlockingTake` scan. -/
theorem try_take_for_none_iff_all_empty (s : PriorityLifoSemMPMCQueue T) :
    (∀ fuel, s.sem_.value < fuel → tryTakeLoop fuel s = try_take_for s) ∧
    (try_take_for s).1 ≠ .outOfFuel ∧
    ((try_take_for s).1 = .none ↔ ∀ q ∈ s.queues_, q.items = []) ∧
    ((try_take_for s).1 = .none → (try_take_for s).2.queues_ = s.queues_) ∧
    (∀ x, (nonBlockingTake s).1 = some x →
      try_take_for s = (.returned x, (nonBlockingTake s).2)) ∧
    ((nonBlockingTake s).1 = none → (try_take_for s).1 = .none) := by
  refine ⟨fun fuel h => tryTakeLoop_eq_try_take_for fuel s h, ?_⟩
  rcases nonBlockingTake_cases s with ⟨hall, hnb⟩ | ⟨i, hi, x, rest, hx, _, hnb⟩
  · have ht : try_take_for s = (.none, { s with sem_ := ⟨0⟩ }) :=
      tryTakeLoop_of_all_empty _ s hall (Nat.lt_succ_self _)
    rw [ht, hnb]
    refine ⟨?_, ?_, ?_, ?_, ?_⟩
    · intro h; cases h
    · exact ⟨fun _ => hall, fun _ => rfl⟩
    · intro _; rfl
    · intro y h; cases h
    · intro _; rfl
  · rw [try_take_for_of_scan_some _ _ _ hnb, hnb]
    refine ⟨?_, ?_, ?_, ?_, ?_⟩
    · intro h; cases h
    · constructor
      · intro h; cases h
      · intro h
        have := h _ (List.getElem_mem hi)
        rw [hx] at this
        cases this
    · intro h; cases h
    · intro y h
      simp only [Option.some.injEq] at h
      subst h
      rfl
    · intro h; cases h

/-- C11, on three levels: with items pending the item of the scan comes back and the
semaphore is not touched; on empty buckets the result is `folly::none`, the buckets stay and
the semaphore is used up. -/
theorem try_take_for_none_iff_all_empty_witness :
    try_take_for (⟨⟨2⟩, [⟨2, [5]⟩, ⟨2, [7, 8]⟩, ⟨2, []⟩]⟩ : PriorityLifoSemMPMCQueue Nat) =
      (.returned 7, ⟨⟨2⟩, [⟨2, [5]⟩, ⟨2, [8]⟩, ⟨2, []⟩]⟩) ∧
    try_take_for (⟨⟨2⟩, [⟨2, []⟩, ⟨2, []⟩, ⟨2, []⟩]⟩ : PriorityLifoSemMPMCQueue Nat) =
      (.none, ⟨⟨0⟩, [⟨2, []⟩, ⟨2, []⟩, ⟨2, []⟩]⟩) ∧
    ((try_take_for
        (⟨⟨2⟩, [⟨2, []⟩, ⟨2, []⟩, ⟨2, []⟩]⟩ : PriorityLifoSemMPMCQueue Nat)).1 = .none ↔
      ∀ q ∈ (⟨⟨2⟩, [⟨2, []⟩, ⟨2, []⟩, ⟨2, []⟩]⟩ : PriorityLifoSemMPMCQueue Nat).queues_,
        q.items = []) :=
  ⟨by decide, by decide,
    (try_take_for_none_iff_all_empty
      (⟨⟨2⟩, [⟨2, []⟩, ⟨2, []⟩, ⟨2, []⟩]⟩ : PriorityLifoSemMPMCQueue Nat)).2.2.1⟩

/-! ### The per-level constructor -/

theorem mkCapacities_of_length (caps : List Nat) (h1 : 1 ≤ caps.length)
    (h2 : caps.length ≤ 255) :
    mkCapacities (T := T) caps = .ok ⟨⟨0⟩, caps.map MPMCQueue.mk0⟩ := by
  unfold mkCapacities
  rw [if_pos (by omega), if_pos (by omega), foldl_emplace_back]
  rfl

theorem mkCapacities_of_bad_length (caps : List Nat)
    (h : caps.length = 0 ∨ 256 ≤ caps.length) :
    mkCapacities (T := T) caps = .checkFailed := by
  unfold mkCapacities
  rcases h with h | h
  · rw [if_neg (by omega)]
  · rw [if_pos (by omega), if_neg (by omega)]

/-- C12: the per-level constructor succeeds iff the number of capacities is in `1..255`
(with 0 or at least 256 of them a `CHECK` aborts); on success `getNumPriorities()` is that
number and level `i` is an empty bucket of capacity `capacities[i]`, in the given order. -/
theorem mkCapacities_succeeds_iff_length (caps : List Nat) :
    ((∃ s : PriorityLifoSemMPMCQueue T, mkCapacities caps = .ok s) ↔
      1 ≤ caps.length ∧ caps.length ≤ 255) ∧
    (caps.length = 0 ∨ 256 ≤ caps.length → mkCapacities (T := T) caps = .checkFailed) ∧
    ∀ s : PriorityLifoSemMPMCQueue T, mkCapacities caps = .ok s →
      s.getNumPriorities = caps.length ∧ s.queues_.length = caps.length ∧
      capacities s = caps ∧
      ∀ i (hi : i < caps.length) (hi' : i < s.queues_.length),
        s.queues_[i] = ⟨caps[i], []⟩ := by
  refine ⟨⟨?_, ?_⟩, mkCapacities_of_bad_length caps, ?_⟩
  · rintro ⟨s, hs⟩
    exact (mkCapacities_ok caps s hs).2
  · rintro ⟨h1, h2⟩
    exact ⟨_, mkCapacities_of_length caps h1 h2⟩
  · intro s hs
    obtain ⟨rfl, h1, h2⟩ := mkCapacities_ok caps s hs
    have hlen : (caps.map (MPMCQueue.mk0 (T := T))).length = caps.length := List.length_map _ _
    refine ⟨?_, hlen, (fresh_facts caps).1, ?_⟩
    · rw [getNumPriorities_eq _ (by simpa using h2)]
      exact hlen
    · intro i hi hi'
      simp [MPMCQueue.mk0]

/-- C12, for the capacities 4, 1, 9: three levels with these capacities, in this order. -/
theorem mkCapacities_succeeds_iff_length_witness :
    mkCapacities [4, 1, 9] =
      CtorResult.ok (⟨⟨0⟩, [⟨4, []⟩, ⟨1, []⟩, ⟨9, []⟩]⟩ : PriorityLifoSemMPMCQueue Nat) ∧
    mkCapacities (T := Nat) [] = CtorResult.checkFailed ∧
    getNumPriorities (⟨⟨0⟩, [⟨4, []⟩, ⟨1, []⟩, ⟨9, []⟩]⟩ : PriorityLifoSemMPMCQueue Nat) =
      [4, 1, 9].length :=
  ⟨by decide, by decide,
    ((mkCapacities_succeeds_iff_length (T := Nat) [4, 1, 9]).2.2
      ⟨⟨0⟩, [⟨4, []⟩, ⟨1, []⟩, ⟨9, []⟩]⟩ (by decide)).1⟩

/-! ### More on the level of a priority -/

theorem queueIndex_le_of_le (n : Nat) (h1 : 1 ≤ n) (h2 : n ≤ 255) (p q : int8_t)
    (hpq : p.val ≤ q.val) : queueIndex n p ≤ queueIndex n q := by
  have hp := queueIndex_cast n h1 h2 p
  have hq := queueIndex_cast n h1 h2 q
  unfold clamp at hp hq
  omega

/-- While an item is pending at some level, a scan leaves every lower level alone. -/
theorem nonBlockingTake_spares_lower (s : PriorityLifoSemMPMCQueue T) (lo hi : Nat)
    (hlt : lo < hi) (hhi : hi < s.queues_.length) (hne : s.queues_[hi].items ≠ []) :
    ∃ x s', nonBlockingTake s = (some x, s') ∧ take s = (.returned x, s') ∧
      s'.queues_[lo]? = s.queues_[lo]? := by
  rcases nonBlockingTake_cases s with ⟨hall, _⟩ | ⟨i, hi', x, rest, hx, hempty, hnb⟩
  · exact absurd (hall _ (List.getElem_mem hhi)) hne
  · have hle : hi ≤ i := by
      by_contra hcon
      exact hne (hempty hi hhi (by omega))
    refine ⟨x, _, hnb, take_of_scan_some _ _ _ hnb, ?_⟩
    exact List.getElem?_set_ne (by omega)

/-- C16: for `1 ≤ N ≤ 255` the level is monotone in the priority; hence, while an item
enqueued with the higher priority is pending at a strictly higher level than the level of the
lower priority, `nonBlockingTake` and `take` return an item and leave the bucket of the lower
priority as it was. -/
theorem queueIndex_monotone (n : Nat) (h1 : 1 ≤ n) (h2 : n ≤ 255) (p q : int8_t)
    (hpq : p.val ≤ q.val) :
    queueIndex n p ≤ queueIndex n q ∧
    ∀ s : PriorityLifoSemMPMCQueue T, s.queues_.length = n →
      queueIndex n p < queueIndex n q →
      (∃ hq : queueIndex n q < s.queues_.length, s.queues_[queueIndex n q].items ≠ []) →
      ∃ x s', nonBlockingTake s = (some x, s') ∧ take s = (.returned x, s') ∧
        s'.queues_[queueIndex n p]? = s.queues_[queueIndex n p]? := by
  refine ⟨queueIndex_le_of_le n h1 h2 p q hpq, ?_⟩
  rintro s _ hlt ⟨hq, hne⟩
  exact nonBlockingTake_spares_lower s _ _ hlt hq hne

/-- C16, on three levels: priority -1 goes to level 0, priority 1 to level 2, and with both
pending the scan takes the item of level 2. -/
theorem queueIndex_monotone_witness :
    (1 ≤ 3 ∧ 3 ≤ 255) ∧
    queueIndex 3 ⟨-1, by decide, by decide⟩ = 0 ∧ queueIndex 3 ⟨1, by decide, by decide⟩ = 2 ∧
    nonBlockingTake (⟨⟨2⟩, [⟨2, [5]⟩, ⟨2, []⟩, ⟨2, [7]⟩]⟩ : PriorityLifoSemMPMCQueue Nat) =
      (some 7, ⟨⟨2⟩, [⟨2, [5]⟩, ⟨2, []⟩, ⟨2, []⟩]⟩) ∧
    queueIndex 3 ⟨-1, by decide, by decide⟩ ≤ queueIndex 3 ⟨1, by decide, by decide⟩ :=
  ⟨⟨by decide, by decide⟩, by decide, by decide, by decide,
    (queueIndex_monotone (T := Nat) 3 (by decide) (by decide) ⟨-1, by decide, by decide⟩
      ⟨1, by decide, by decide⟩ (by decide)).1⟩

theorem queueIndex_HI_PRI (n : Nat) (h1 : 1 ≤ n) (h2 : n ≤ 255) :
    queueIndex n HI_PRI = n - 1 := by
  have h := queueIndex_cast n h1 h2 HI_PRI
  have hv : HI_PRI.val = 127 := rfl
  unfold clamp at h
  rw [hv] at h
  omega

theorem queueIndex_LO_PRI (n : Nat) (h1 : 1 ≤ n) (h2 : n ≤ 255) :
    queueIndex n LO_PRI = 0 := by
  have h := queueIndex_cast n h1 h2 LO_PRI
  have hv : LO_PRI.val = -128 := rfl
  unfold clamp at h
  rw [hv] at h
  omega

theorem queueIndex_of_offset (n : Nat) (h1 : 1 ≤ n) (h2 : n ≤ 255) (i : Nat) (hi : i < n)
    (p : int8_t) (hp : p.val = (i : Int) - (n : Int) / 2) : queueIndex n p = i := by
  have h := queueIndex_cast n h1 h2 p
  unfold clamp at h
  rw [hp] at h
  omega

/-- C17: for `1 ≤ N ≤ 255` every level below `N` is the level of some `int8_t` priority
(of `i - N/2` for level `i`); `HI_PRI` = 127 goes to level `N - 1` and `LO_PRI` = -128 to
level 0. -/
theorem queueIndex_onto (n : Nat) (h1 : 1 ≤ n) (h2 : n ≤ 255) :
    (∀ i, i < n → ∃ p : int8_t, queueIndex n p = i) ∧
    (HI_PRI.val = 127 ∧ queueIndex n HI_PRI = n - 1) ∧
    (LO_PRI.val = -128 ∧ queueIndex n LO_PRI = 0) := by
  refine ⟨?_, ⟨rfl, queueIndex_HI_PRI n h1 h2⟩, ⟨rfl, queueIndex_LO_PRI n h1 h2⟩⟩
  intro i hi
  exact ⟨⟨(i : Int) - (n : Int) / 2, by omega, by omega⟩,
    queueIndex_of_offset n h1 h2 i hi _ rfl⟩

/-- C17, with 255 levels: the extreme priorities reach the two ends. -/
theorem queueIndex_onto_witness :
    (1 ≤ 255 ∧ 255 ≤ 255) ∧ queueIndex 255 HI_PRI = 254 ∧ queueIndex 255 LO_PRI = 0 ∧
    ∃ p : int8_t, queueIndex 255 p = 200 :=
  ⟨⟨by decide, by decide⟩, by decide, by decide,
    (queueIndex_onto 255 (by decide) (by decide)).1 200 (by decide)⟩

/-! ### Two levels -/

theorem queueIndex_two_of_mid_or_hi (p : int8_t) (h : p.val = 0 ∨ p.val = 127) :
    queueIndex 2 p = 1 := by
  have hc := queueIndex_cast 2 (by decide) (by decide) p
  unfold clamp at hc
  rcases h with h | h <;> rw [h] at hc <;> omega

/-- With two levels, pairs whose priorities are all `MID_PRI` or `HI_PRI` are all sent to
level 1, so ordering by descending level keeps the input order. -/
theorem byDescendingLevel_two_of_mid_or_hi (input : List (T × int8_t))
    (h : ∀ e ∈ input, e.2.val = 0 ∨ e.2.val = 127) :
    atLevel 2 input 1 = input ∧ atLevel 2 input 0 = [] ∧ byDescendingLevel 2 input = input := by
  have h1 : atLevel 2 input 1 = input := by
    unfold atLevel
    rw [List.filter_eq_self]
    intro e he
    simp [queueIndex_two_of_mid_or_hi e.2 (h e he)]
  have h0 : atLevel 2 input 0 = [] := by
    unfold atLevel
    rw [List.filter_eq_nil_iff]
    intro e he
    simp [queueIndex_two_of_mid_or_hi e.2 (h e he)]
  refine ⟨h1, h0, ?_⟩
  have hr : (List.range 2).reverse = [1, 0] := by decide
  unfold byDescendingLevel
  rw [hr]
  simp [h1, h0]

/-- C14: with exactly two levels `MID_PRI` (0, the priority used by `add`) and `HI_PRI`
(127) both go to level 1 and `LO_PRI` (-128) to level 0; items enqueued with `MID_PRI` or
`HI_PRI` into a fresh two-level queue, no more of them than level 1 can hold, are dequeued
in the order of their enqueue. -/
theorem two_levels_mid_and_hi_share_level :
    (MID_PRI.val = 0 ∧ HI_PRI.val = 127 ∧ LO_PRI.val = -128) ∧
    (queueIndex 2 MID_PRI = 1 ∧ queueIndex 2 HI_PRI = 1 ∧ queueIndex 2 LO_PRI = 0) ∧
    (∀ (k : QueueBehaviorIfFull) (s : PriorityLifoSemMPMCQueue T) (item : T),
      add k s item = addWithPriority k s item MID_PRI) ∧
    ∀ (k : QueueBehaviorIfFull) (c0 c1 : Nat) (s0 : PriorityLifoSemMPMCQueue T)
      (input : List (T × int8_t)) (fuel : Nat),
      mkCapacities [c0, c1] = .ok s0 →
      (∀ e ∈ input, e.2.val = 0 ∨ e.2.val = 127) → input.length ≤ c1 →
      input.length < fuel →
      ∃ s1 s2, enqueueAll k input s0 = some s1 ∧
        drain fuel s1 = some (input.map Prod.fst, s2) := by
  refine ⟨⟨rfl, rfl, rfl⟩, ⟨by decide, by decide, by decide⟩, fun _ _ _ => rfl, ?_⟩
  intro k c0 c1 s0 input fuel hfresh hpri hlen hfuel
  obtain ⟨rfl, h1, h2⟩ := mkCapacities_ok [c0, c1] s0 hfresh
  obtain ⟨hl1, hl0, hsort⟩ := byDescendingLevel_two_of_mid_or_hi input hpri
  have hfit : ∀ i (hi : i < [c0, c1].length),
      (atLevel [c0, c1].length ([] ++ input) i).length ≤ [c0, c1][i] := by
    intro i hi
    have hi2 : i < 2 := hi
    have hcases : i = 0 ∨ i = 1 := by omega
    rcases hcases with rfl | rfl
    · show (atLevel 2 ([] ++ input) 0).length ≤ c0
      rw [List.nil_append, hl0]
      exact Nat.zero_le _
    · show (atLevel 2 ([] ++ input) 1).length ≤ c1
      rw [List.nil_append, hl1]
      exact hlen
  have henq := enqueueAll_filled k [c0, c1] h1 h2 input [] hfit
  simp only [List.length_nil, List.nil_append, filled_nil] at henq
  have hpend : (filled [c0, c1] input).reverse.flatMap (fun q => q.items) =
      input.map Prod.fst := by
    rw [pending_filled]
    show (byDescendingLevel 2 input).map Prod.fst = input.map Prod.fst
    rw [hsort]
  have hdrain := drain_all fuel
    (⟨⟨input.length⟩, filled [c0, c1] input⟩ : PriorityLifoSemMPMCQueue T)
    (by simp only [hpend, List.length_map]; exact hfuel)
  simp only [hpend] at hdrain
  exact ⟨_, _, henq, hdrain⟩

/-- C14, on a fresh queue of two levels of capacity 3: A with `HI_PRI`, B with `MID_PRI`,
C with `HI_PRI` come out as A, B, C. -/
theorem two_levels_mid_and_hi_share_level_witness :
    mkCapacities [3, 3] =
      CtorResult.ok (⟨⟨0⟩, [⟨3, []⟩, ⟨3, []⟩]⟩ : PriorityLifoSemMPMCQueue Char) ∧
    enqueueAll .THROW [('A', HI_PRI), ('B', MID_PRI), ('C', HI_PRI)]
        (⟨⟨0⟩, [⟨3, []⟩, ⟨3, []⟩]⟩ : PriorityLifoSemMPMCQueue Char) =
      some ⟨⟨3⟩, [⟨3, []⟩, ⟨3, ['A', 'B', 'C']⟩]⟩ ∧
    ∃ s1 s2,
      enqueueAll .THROW [('A', HI_PRI), ('B', MID_PRI), ('C', HI_PRI)]
          (⟨⟨0⟩, [⟨3, []⟩, ⟨3, []⟩]⟩ : PriorityLifoSemMPMCQueue Char) = some s1 ∧
      drain 4 s1 =
        some ([('A', HI_PRI), ('B', MID_PRI), ('C', HI_PRI)].map Prod.fst, s2) :=
  ⟨by decide, by decide,
    (two_levels_mid_and_hi_share_level (T := Char)).2.2.2 .THROW 3 3
      ⟨⟨0⟩, [⟨3, []⟩, ⟨3, []⟩]⟩ [('A', HI_PRI), ('B', MID_PRI), ('C', HI_PRI)] 4
      (by decide) (by decide) (by decide) (by decide)⟩

/-! ### The semaphore never under-reports -/

theorem sumSizes_with_sem (s : PriorityLifoSemMPMCQueue T) (sem : LifoSem) :
    sumSizes { s with sem_ := sem } = sumSizes s := rfl

/-- Every call leaves the semaphore's value at or above the number of pending items,
however the call ends. -/
theorem stateAfter_sem_ge (k : QueueBehaviorIfFull) (s : PriorityLifoSemMPMCQueue T)
    (op : Op T) (h : sumSizes s ≤ s.sem_.value) :
    sumSizes (stateAfter k s op) ≤ (stateAfter k s op).sem_.value := by
  cases op with
  | addWithPriority item p =>
    show sumSizes (addWithPriority k s item p).2 ≤ (addWithPriority k s item p).2.sem_.value
    by_cases hl : queueIndex s.getNumPriorities p < s.queues_.length
    · by_cases hroom : s.queues_[queueIndex s.getNumPriorities p].items.length <
          s.queues_[queueIndex s.getNumPriorities p].capacity
      · rw [addWithPriority_of_room k s item p hl hroom]
        have hs := (push_effect s ⟨s.sem_.value + 1⟩ _ hl item hroom).2.2
        simp only at hs ⊢
        omega
      · cases k
        · rw [addWithPriority_throw_of_full s item p hl (Nat.le_of_not_lt hroom)]
          exact h
        · rw [addWithPriority_block_of_full s item p hl (Nat.le_of_not_lt hroom)]
          exact h
    · rw [addWithPriority_of_check_failed k s item p hl]
      exact h
  | take =>
    show sumSizes (take s).2 ≤ (take s).2.sem_.value
    rcases nonBlockingTake_cases s with ⟨hall, _⟩ | ⟨i, hi, x, rest, hx, _, hnb⟩
    · have ht : take s = (.blocked, { s with sem_ := ⟨0⟩ }) :=
        takeLoop_of_all_empty _ s hall (Nat.lt_succ_self _)
      rw [ht]
      simp only [sumSizes_with_sem, sumSizes_eq_zero_of_all_empty s hall]
      exact Nat.le_refl 0
    · rw [take_of_scan_some _ _ _ hnb]
      have hs := (pop_effect s i hi x rest hx).2.2
      simp only at hs ⊢
      omega
  | try_take_for =>
    show sumSizes (try_take_for s).2 ≤ (try_take_for s).2.sem_.value
    rcases nonBlockingTake_cases s with ⟨hall, _⟩ | ⟨i, hi, x, rest, hx, _, hnb⟩
    · have ht : try_take_for s = (.none, { s with sem_ := ⟨0⟩ }) :=
        tryTakeLoop_of_all_empty _ s hall (Nat.lt_succ_self _)
      rw [ht]
      simp only [sumSizes_with_sem, sumSizes_eq_zero_of_all_empty s hall]
      exact Nat.le_refl 0
    · rw [try_take_for_of_scan_some _ _ _ hnb]
      have hs := (pop_effect s i hi x rest hx).2.2
      simp only at hs ⊢
      omega
  | nonBlockingTake =>
    show sumSizes (nonBlockingTake s).2 ≤ (nonBlockingTake s).2.sem_.value
    rcases nonBlockingTake_cases s with ⟨_, hnb⟩ | ⟨i, hi, x, rest, hx, _, hnb⟩
    · rw [hnb]
      exact h
    · rw [hnb]
      have hs := (pop_effect s i hi x rest hx).2.2
      simp only at hs ⊢
      omega

theorem stateAfterAll_sem_ge (k : QueueBehaviorIfFull) (ops : List (Op T))
    (s : PriorityLifoSemMPMCQueue T) (h : sumSizes s ≤ s.sem_.value) :
    sumSizes (stateAfterAll k ops s) ≤ (stateAfterAll k ops s).sem_.value := by
  induction ops generalizing s with
  | nil => exact h
  | cons op ops ih =>
    show sumSizes (stateAfterAll k ops (stateAfter k s op)) ≤
      (stateAfterAll k ops (stateAfter k s op)).sem_.value
    exact ih _ (stateAfter_sem_ge k s op h)

/-- A call that comes back leaves the state recorded by `stateAfter`. -/
theorem callOp_state (k : QueueBehaviorIfFull) (s s' : PriorityLifoSemMPMCQueue T)
    (op : Op T) (e : Event T) (h : callOp k s op = some (e, s')) : s' = stateAfter k s op := by
  cases op with
  | addWithPriority item p =>
    simp only [callOp] at h
    show s' = (addWithPriority k s item p).2
    cases hr : addWithPriority k s item p with
    | mk r t =>
      rw [hr] at h
      cases r <;> simp at h <;> exact h.2.symm
  | take =>
    simp only [callOp] at h
    show s' = (take s).2
    cases hr : take s with
    | mk r t =>
      rw [hr] at h
      cases r with
      | returned item =>
        simp only [Option.some.injEq, Prod.mk.injEq] at h
        exact h.2.symm
      | blocked => cases h
      | outOfFuel => cases h
  | try_take_for =>
    simp only [callOp] at h
    show s' = (try_take_for s).2
    cases hr : try_take_for s with
    | mk r t =>
      rw [hr] at h
      cases r <;> simp at h <;> exact h.2.symm
  | nonBlockingTake =>
    simp only [callOp] at h
    show s' = (nonBlockingTake s).2
    cases hr : nonBlockingTake s with
    | mk r t =>
      rw [hr] at h
      cases r <;> simp at h <;> exact h.2.symm

theorem runOps_state (k : QueueBehaviorIfFull) (ops : List (Op T))
    (s s' : PriorityLifoSemMPMCQueue T) (es : List (Event T))
    (h : runOps k ops s = some (es, s')) : s' = stateAfterAll k ops s := by
  induction ops generalizing s es with
  | nil =>
    simp only [runOps, Option.some.injEq, Prod.mk.injEq] at h
    exact h.2.symm
  | cons op ops ih =>
    obtain ⟨e, s1, es', hc, hr, _⟩ := runOps_cons k op ops s s' es h
    rw [ih s1 es' hr, callOp_state k s s1 op e hc]
    rfl

/-- C15: on a queue fresh from its constructor, after any sequence of `addWithPriority`,
`take`, `try_take_for` and `nonBlockingTake` calls, however each of them ended, the
semaphore's value is at least the sum of the bucket sizes; the states reached by sequences
of calls that all came back are among these. -/
theorem semaphore_at_least_pending (k : QueueBehaviorIfFull) (caps : List Nat)
    (s0 : PriorityLifoSemMPMCQueue T) (hfresh : mkCapacities caps = .ok s0)
    (ops : List (Op T)) :
    sumSizes (stateAfterAll k ops s0) ≤ (stateAfterAll k ops s0).sem_.value ∧
    ∀ es s, runOps k ops s0 = some (es, s) →
      s = stateAfterAll k ops s0 ∧ sumSizes s ≤ s.sem_.value := by
  obtain ⟨rfl, _, _⟩ := mkCapacities_ok caps s0 hfresh
  have h0 : sumSizes (⟨⟨0⟩, caps.map MPMCQueue.mk0⟩ : PriorityLifoSemMPMCQueue T) ≤
      (⟨⟨0⟩, caps.map MPMCQueue.mk0⟩ : PriorityLifoSemMPMCQueue T).sem_.value := by
    rw [(fresh_facts caps).2.2]
  have hall := stateAfterAll_sem_ge k ops _ h0
  refine ⟨hall, ?_⟩
  intro es s hrun
  have hs := runOps_state k ops _ s es hrun
  exact ⟨hs, by rw [hs]; exact hall⟩

/-- C15, on one level of capacity 2: after enqueue, enqueue, take, then a `take` that
finds an item and a `take` that blocks on the emptied queue, the value 0 is still at least
the number 0 of pending items; after the first three calls it is 2 against 1. -/
theorem semaphore_at_least_pending_witness :
    mkCapacities [2] = CtorResult.ok (⟨⟨0⟩, [⟨2, []⟩]⟩ : PriorityLifoSemMPMCQueue Nat) ∧
    stateAfterAll .THROW [.addWithPriority 7 MID_PRI, .addWithPriority 8 MID_PRI, .take]
        (⟨⟨0⟩, [⟨2, []⟩]⟩ : PriorityLifoSemMPMCQueue Nat) = ⟨⟨2⟩, [⟨2, [8]⟩]⟩ ∧
    stateAfterAll .THROW
        [.addWithPriority 7 MID_PRI, .addWithPriority 8 MID_PRI, .take, .take, .take]
        (⟨⟨0⟩, [⟨2, []⟩]⟩ : PriorityLifoSemMPMCQueue Nat) = ⟨⟨0⟩, [⟨2, []⟩]⟩ ∧
    sumSizes (stateAfterAll .THROW
        [.addWithPriority 7 MID_PRI, .addWithPriority 8 MID_PRI, .take]
        (⟨⟨0⟩, [⟨2, []⟩]⟩ : PriorityLifoSemMPMCQueue Nat)) ≤
      (stateAfterAll .THROW
        [.addWithPriority 7 MID_PRI, .addWithPriority 8 MID_PRI, .take]
        (⟨⟨0⟩, [⟨2, []⟩]⟩ : PriorityLifoSemMPMCQueue Nat)).sem_.value :=
  ⟨by decide, by decide, by decide,
    (semaphore_at_least_pending .THROW [2]
      (⟨⟨0⟩, [⟨2, []⟩]⟩ : PriorityLifoSemMPMCQueue Nat) (by decide)
      [.addWithPriority 7 MID_PRI, .addWithPriority 8 MID_PRI, .take]).1⟩

end PriorityLifoSemMPMCQueue

/-! ## Properties of the registry -/

namespace ThreadIdWorkerProvider

theorem mem_setInsert (l : List pid_t) (t id : pid_t) :
    id ∈ setInsert l t ↔ id = t ∨ id ∈ l := by
  unfold setInsert
  by_cases h : t ∈ l
  · rw [if_pos h]
    constructor
    · exact Or.inr
    · rintro (rfl | h')
      · exact h
      · exact h'
  · rw [if_neg h]
    exact List.mem_cons

theorem mem_setErase (l : List pid_t) (t id : pid_t) :
    id ∈ setErase l t ↔ id ∈ l ∧ id ≠ t := by
  unfold setErase
  simp

theorem nodup_setInsert (l : List pid_t) (t : pid_t) (h : l.Nodup) : (setInsert l t).Nodup := by
  unfold setInsert
  by_cases ht : t ∈ l
  · rw [if_pos ht]; exact h
  · rw [if_neg ht]; exact List.nodup_cons.mpr ⟨ht, h⟩

theorem nodup_setErase (l : List pid_t) (t : pid_t) (h : l.Nodup) : (setErase l t).Nodup :=
  h.filter _

/-- What one call of a sequential run does to the id set, started with the gate not held
exclusively. -/
theorem call_effect (p p' : ThreadIdWorkerProvider) (c : Call) (r : Option (List pid_t))
    (hw : p.threadsExitMutex_.writer = false) (hnd : p.osThreadIds_.Nodup)
    (h : call p c = some (r, p')) :
    p'.threadsExitMutex_.writer = false ∧ p'.osThreadIds_.Nodup ∧
    (∀ id b, (id ∈ p.osThreadIds_ ↔ b = true) →
      (id ∈ p'.osThreadIds_ ↔ registeredFrom id b [c] = true)) ∧
    (∀ ids, r = some ids → ids = p.osThreadIds_) := by
  cases c with
  | addTid tid =>
    simp only [call, Option.some.injEq, Prod.mk.injEq] at h
    obtain ⟨rfl, rfl⟩ := h
    refine ⟨hw, nodup_setInsert _ _ hnd, ?_, fun ids h => by cases h⟩
    intro id b hb
    simp only [addTid, mem_setInsert, registeredFrom]
    by_cases ht : tid = id
    · simp [ht]
    · simp only [ht, if_false, ← hb]
      constructor
      · rintro (h | h)
        · exact absurd h.symm ht
        · exact h
      · exact Or.inr
  | removeTid tid =>
    simp only [call, removeTid, removeAcquire, removeErase, SharedMutex.lock, hw] at h
    by_cases hr : p.threadsExitMutex_.readers = 0
    · simp only [hr, if_true, Bool.false_eq_true, if_false, Option.some.injEq,
        Prod.mk.injEq] at h
      obtain ⟨rfl, rfl⟩ := h
      refine ⟨rfl, nodup_setErase _ _ hnd, ?_, fun ids h => by cases h⟩
      intro id b hb
      simp only [removeRelease, mem_setErase, registeredFrom]
      by_cases ht : tid = id
      · simp [ht]
      · simp only [ht, if_false, ← hb]
        constructor
        · exact fun h => h.1
        · exact fun h => ⟨h, fun h' => ht h'.symm⟩
    · simp [hr] at h
  | collectThreadIds =>
    simp only [call, collectThreadIds, collectAcquire, SharedMutex.lock_shared, hw,
      Bool.false_eq_true, if_false, collectRead, Option.some.injEq, Prod.mk.injEq] at h
    obtain ⟨rfl, rfl⟩ := h
    refine ⟨rfl, hnd, ?_, fun ids h => by cases h; rfl⟩
    intro id b hb
    simpa only [registeredFrom] using hb
  | releaseKeepAlive =>
    simp only [call] at h
    by_cases hr : 0 < p.threadsExitMutex_.readers
    · rw [if_pos hr] at h
      simp only [Option.some.injEq, Prod.mk.injEq] at h
      obtain ⟨rfl, rfl⟩ := h
      refine ⟨hw, hnd, ?_, fun ids h => by cases h⟩
      intro id b hb
      simpa only [registeredFrom] using hb
    · rw [if_neg hr] at h
      cases h

theorem runCalls_cons (c : Call) (cs : List Call) (p p'' : ThreadIdWorkerProvider)
    (snaps : List (List pid_t)) (h : runCalls (c :: cs) p = some (snaps, p'')) :
    ∃ r p' snaps', call p c = some (r, p') ∧ runCalls cs p' = some (snaps', p'') := by
  unfold runCalls at h
  cases hc : call p c with
  | none => rw [hc] at h; cases h
  | some x =>
    obtain ⟨r, p'⟩ := x
    rw [hc] at h
    simp only at h
    cases hr : runCalls cs p' with
    | none => rw [hr] at h; cases h
    | some y =>
      obtain ⟨snaps', p3⟩ := y
      rw [hr] at h
      cases r <;> simp only [Option.some.injEq, Prod.mk.injEq] at h <;>
        obtain ⟨_, rfl⟩ := h <;> exact ⟨_, p', snaps', rfl, hr⟩

theorem registeredFrom_single_cons (id : pid_t) (b : Bool) (c : Call) (cs : List Call) :
    registeredFrom id b (c :: cs) = registeredFrom id (registeredFrom id b [c]) cs := by
  cases c <;> simp [registeredFrom]

/-- Along a sequential run the id set follows, id by id, the state machine of the
specification. -/
theorem runCalls_membership (calls : List Call) (p p' : ThreadIdWorkerProvider)
    (snaps : List (List pid_t)) (hw : p.threadsExitMutex_.writer = false)
    (hnd : p.osThreadIds_.Nodup) (h : runCalls calls p = some (snaps, p')) :
    p'.threadsExitMutex_.writer = false ∧ p'.osThreadIds_.Nodup ∧
    ∀ id b, (id ∈ p.osThreadIds_ ↔ b = true) →
      (id ∈ p'.osThreadIds_ ↔ registeredFrom id b calls = true) := by
  induction calls generalizing p snaps with
  | nil =>
    simp only [runCalls, Option.some.injEq, Prod.mk.injEq] at h
    obtain ⟨_, rfl⟩ := h
    exact ⟨hw, hnd, fun id b hb => by simpa only [registeredFrom] using hb⟩
  | cons c cs ih =>
    obtain ⟨r, p1, snaps', hc, hr⟩ := runCalls_cons c cs p p' snaps h
    obtain ⟨hw1, hnd1, hmem1, _⟩ := call_effect p p1 c r hw hnd hc
    obtain ⟨hw2, hnd2, hmem2⟩ := ih p1 snaps' hw1 hnd1 hr
    refine ⟨hw2, hnd2, ?_⟩
    intro id b hb
    rw [registeredFrom_single_cons]
    exact hmem2 id _ (hmem1 id b hb)

theorem registeredFrom_append (id : pid_t) (b : Bool) (xs ys : List Call) :
    registeredFrom id b (xs ++ ys) = registeredFrom id (registeredFrom id b xs) ys := by
  induction xs generalizing b with
  | nil => rfl
  | cons c xs ih =>
    rw [List.cons_append, registeredFrom_single_cons, ih, ← registeredFrom_single_cons]

theorem registeredFrom_false_of_no_add (id : pid_t) (cs : List Call)
    (h : Call.addTid id ∉ cs) : registeredFrom id false cs = false := by
  induction cs with
  | nil => rfl
  | cons c cs ih =>
    have hc : c ≠ Call.addTid id := fun hc => h (hc ▸ List.mem_cons_self c cs)
    have hcs : Call.addTid id ∉ cs := fun hcs => h (List.mem_cons_of_mem c hcs)
    cases c with
    | addTid tid =>
      have ht : tid ≠ id := fun ht => hc (by rw [ht])
      simp only [registeredFrom, ht, if_false]
      exact ih hcs
    | removeTid tid =>
      simp only [registeredFrom, ite_self]
      exact ih hcs
    | collectThreadIds => simpa only [registeredFrom] using ih hcs
    | releaseKeepAlive => simpa only [registeredFrom] using ih hcs

/-- C8: after any sequence of calls that came back on a fresh provider, `collectThreadIds`
comes back and returns, without repetition, exactly the ids added and not removed since their
last add; after `removeTid(id)` with no later `addTid(id)` the id is not returned; and a
second `addTid(id)` changes nothing. -/
theorem collectThreadIds_returns_registered (calls : List Call) (snaps : List (List pid_t))
    (p : ThreadIdWorkerProvider) (hrun : runCalls calls fresh = some (snaps, p)) :
    (∃ p' ids, p.collectThreadIds = some (p', ids) ∧ ids.Nodup ∧
      (∀ id, id ∈ ids ↔ registeredAfter calls id = true) ∧
      (∀ pre post id, calls = pre ++ Call.removeTid id :: post → Call.addTid id ∉ post →
        id ∉ ids)) ∧
    (∀ id, (p.addTid id).addTid id = p.addTid id) := by
  obtain ⟨hw, hnd, hmem⟩ := runCalls_membership calls fresh p snaps rfl List.nodup_nil hrun
  have hreg : ∀ id, id ∈ p.osThreadIds_ ↔ registeredAfter calls id = true := by
    intro id
    exact hmem id false (by simp [fresh])
  refine ⟨⟨{ p with threadsExitMutex_ :=
      { p.threadsExitMutex_ with readers := p.threadsExitMutex_.readers + 1 } },
    p.osThreadIds_, ?_, hnd, hreg, ?_⟩, ?_⟩
  · simp [collectThreadIds, collectAcquire, SharedMutex.lock_shared, hw, collectRead]
  · intro pre post id hcalls hno hin
    have h1 := (hreg id).mp hin
    rw [hcalls] at h1
    unfold registeredAfter at h1
    rw [registeredFrom_append, registeredFrom_single_cons] at h1
    simp only [registeredFrom, if_true] at h1
    rw [registeredFrom_false_of_no_add id post hno] at h1
    cases h1
  · intro id
    simp only [addTid, setInsert]
    have : id ∈ (if id ∈ p.osThreadIds_ then p.osThreadIds_ else id :: p.osThreadIds_) := by
      by_cases h : id ∈ p.osThreadIds_
      · rw [if_pos h]; exact h
      · rw [if_neg h]; exact List.mem_cons_self _ _
    rw [if_pos this]

/-- C8, the scenario of the specification run sequentially: `add(7)`; the snapshot is `{7}`;
its keep-alive is destroyed; `remove(7)`; the next snapshot is empty. -/
theorem collectThreadIds_returns_registered_witness :
    runCalls [.addTid 7, .collectThreadIds, .releaseKeepAlive, .removeTid 7, .collectThreadIds]
        fresh = some ([[7], []], ⟨[], ⟨1, false⟩⟩) ∧
    runCalls [.addTid 7, .addTid 7, .collectThreadIds] fresh =
      some ([[7]], ⟨[7], ⟨1, false⟩⟩) ∧
    ∃ p' ids, collectThreadIds ⟨[7], ⟨1, false⟩⟩ = some (p', ids) ∧ ids.Nodup ∧
      ∀ id, id ∈ ids ↔
        registeredAfter [.addTid 7, .addTid 7, .collectThreadIds] id = true :=
  ⟨by decide, by decide,
    (collectThreadIds_returns_registered [.addTid 7, .addTid 7, .collectThreadIds] [[7]]
      ⟨[7], ⟨1, false⟩⟩ (by decide)).1.elim
      (fun p' h => h.elim (fun ids h' => ⟨p', ids, h'.1, h'.2.1, h'.2.2.1⟩))⟩

/-! ### The interleaved runs -/

theorem noteAdd_tid (tid : pid_t) (c : RemoveCall) : (noteAdd tid c).tid = c.tid := by
  unfold noteAdd
  split <;> rfl

theorem noteAdd_of_not_readded (tid : pid_t) (c : RemoveCall)
    (h : (noteAdd tid c).readded = false) : c.readded = false ∧ c.tid ≠ tid := by
  unfold noteAdd at h
  by_cases ht : c.tid = tid
  · rw [if_pos ht] at h
    cases h
  · rw [if_neg ht] at h
    exact ⟨h, ht⟩

theorem not_mem_setInsert (l : List pid_t) (t x : pid_t) (hx : x ≠ t) (h : x ∉ l) :
    x ∉ setInsert l t := by
  intro hin
  rcases (mem_setInsert l t x).mp hin with h' | h'
  · exact hx h'
  · exact h h'

theorem not_mem_setErase (l : List pid_t) (t x : pid_t) (h : x ∉ l) : x ∉ setErase l t :=
  fun hin => h ((mem_setErase l t x).mp hin).1

theorem not_mem_setErase_self (l : List pid_t) (t : pid_t) : t ∉ setErase l t :=
  fun hin => ((mem_setErase l t t).mp hin).2 rfl

theorem inv_init : Inv System.init where
  readers_eq := rfl
  writer_iff := by simp [System.init, fresh]
  excl_no_guard := fun _ => rfl
  guard_past := fun g hg => by cases hg
  excl_past := fun e he => by cases he
  released_past := fun r hr => by cases hr
  returned_past := fun r hr => by cases hr
  guard_after_released := fun g hg => by cases hg
  guard_after_returned := fun g hg => by cases hg
  erased_absent := fun c hc => by cases hc
  excl_absent := fun e he => by cases he
  released_absent := fun r hr => by cases hr
  released_unseen := fun r hr => by cases hr

/-- `addTid` preserves the invariant. -/
theorem step_inv_addTid (σ : System) (tid : pid_t) (hinv : Inv σ) :
    Inv { σ with provider := σ.provider.addTid tid,
                 erased := σ.erased.map (noteAdd tid),
                 exclusive := σ.exclusive.map (fun e => (noteAdd tid e.1, e.2)),
                 released := σ.released.map (fun r => { r with call := noteAdd tid r.call }),
                 now := σ.now + 1 } where
  readers_eq := hinv.readers_eq
  writer_iff := by
    show σ.provider.threadsExitMutex_.writer = true ↔
      σ.exclusive.map (fun e => (noteAdd tid e.1, e.2)) ≠ none
    rw [hinv.writer_iff]
    cases σ.exclusive <;> simp
  excl_no_guard := by
    intro hne
    apply hinv.excl_no_guard
    intro h0
    apply hne
    show σ.exclusive.map (fun e => (noteAdd tid e.1, e.2)) = none
    rw [h0]
    rfl
  guard_past := fun g hg => Nat.lt_succ_of_lt (hinv.guard_past g hg)
  excl_past := by
    intro e he
    have he' : σ.exclusive.map (fun e => (noteAdd tid e.1, e.2)) = some e := he
    obtain ⟨e0, he0, rfl⟩ := Option.map_eq_some'.mp he'
    exact Nat.lt_succ_of_lt (hinv.excl_past e0 he0)
  released_past := by
    intro r hr
    obtain ⟨r0, hr0, rfl⟩ := List.mem_map.mp hr
    exact ⟨(hinv.released_past r0 hr0).1, Nat.lt_succ_of_lt (hinv.released_past r0 hr0).2⟩
  returned_past := fun r hr =>
    ⟨(hinv.returned_past r hr).1, (hinv.returned_past r hr).2.1,
      Nat.lt_succ_of_lt (hinv.returned_past r hr).2.2⟩
  guard_after_released := by
    intro g hg r hr
    obtain ⟨r0, hr0, rfl⟩ := List.mem_map.mp hr
    exact hinv.guard_after_released g hg r0 hr0
  guard_after_returned := hinv.guard_after_returned
  erased_absent := by
    intro c hc hf
    obtain ⟨c0, hc0, rfl⟩ := List.mem_map.mp hc
    obtain ⟨hf0, hne⟩ := noteAdd_of_not_readded tid c0 hf
    rw [noteAdd_tid]
    exact not_mem_setInsert _ _ _ hne (hinv.erased_absent c0 hc0 hf0)
  excl_absent := by
    intro e he hf
    have he' : σ.exclusive.map (fun e => (noteAdd tid e.1, e.2)) = some e := he
    obtain ⟨e0, he0, rfl⟩ := Option.map_eq_some'.mp he'
    obtain ⟨hf0, hne⟩ := noteAdd_of_not_readded tid e0.1 hf
    show (noteAdd tid e0.1).tid ∉ setInsert σ.provider.osThreadIds_ tid
    rw [noteAdd_tid]
    exact not_mem_setInsert _ _ _ hne (hinv.excl_absent e0 he0 hf0)
  released_absent := by
    intro r hr hf
    obtain ⟨r0, hr0, rfl⟩ := List.mem_map.mp hr
    obtain ⟨hf0, hne⟩ := noteAdd_of_not_readded tid r0.call hf
    show (noteAdd tid r0.call).tid ∉ setInsert σ.provider.osThreadIds_ tid
    rw [noteAdd_tid]
    exact not_mem_setInsert _ _ _ hne (hinv.released_absent r0 hr0 hf0)
  released_unseen := by
    intro r hr hf g hg ids hids
    obtain ⟨r0, hr0, rfl⟩ := List.mem_map.mp hr
    obtain ⟨hf0, _⟩ := noteAdd_of_not_readded tid r0.call hf
    show (noteAdd tid r0.call).tid ∉ ids
    rw [noteAdd_tid]
    exact hinv.released_unseen r0 hr0 hf0 g hg ids hids
theorem collectAcquire_some (p0 p : ThreadIdWorkerProvider) (h : p0.collectAcquire = some p) :
    p0.threadsExitMutex_.writer = false ∧
    p = { p0 with threadsExitMutex_ :=
      { p0.threadsExitMutex_ with readers := p0.threadsExitMutex_.readers + 1 } } := by
  unfold collectAcquire SharedMutex.lock_shared at h
  cases hw : p0.threadsExitMutex_.writer with
  | true => simp [hw] at h
  | false =>
    simp only [hw, Bool.false_eq_true, if_false, Option.some.injEq] at h
    refine ⟨rfl, ?_⟩
    rw [← h]
    simp [hw]

theorem removeAcquire_some (p0 p : ThreadIdWorkerProvider) (h : p0.removeAcquire = some p) :
    p0.threadsExitMutex_.writer = false ∧ p0.threadsExitMutex_.readers = 0 ∧
    p = { p0 with threadsExitMutex_ := { p0.threadsExitMutex_ with writer := true } } := by
  unfold removeAcquire SharedMutex.lock at h
  cases hw : p0.threadsExitMutex_.writer with
  | true => simp [hw] at h
  | false =>
    by_cases hr : p0.threadsExitMutex_.readers = 0
    · simp only [hw, hr, Bool.false_eq_true, if_false, if_true, Option.some.injEq] at h
      refine ⟨rfl, hr, ?_⟩
      rw [← h]
      simp [hr]
    · simp [hw, hr] at h

theorem exclusive_none_of_writer_false (σ : System) (hinv : Inv σ)
    (hw : σ.provider.threadsExitMutex_.writer = false) : σ.exclusive = none := by
  by_contra hne
  have := hinv.writer_iff.mpr hne
  rw [hw] at this
  cases this

/-- The first statement of `collectThreadIds` preserves the invariant. -/
theorem step_inv_collectAcquire (σ : System) (hinv : Inv σ)
    (hw : σ.provider.threadsExitMutex_.writer = false) :
    Inv { σ with
      provider := { σ.provider with threadsExitMutex_ :=
        { σ.provider.threadsExitMutex_ with
          readers := σ.provider.threadsExitMutex_.readers + 1 } },
      keepAlives := σ.keepAlives ++ [⟨σ.now, none⟩], now := σ.now + 1 } where
  readers_eq := by simp [hinv.readers_eq]
  writer_iff := hinv.writer_iff
  excl_no_guard := fun hne => absurd (exclusive_none_of_writer_false σ hinv hw) hne
  guard_past := by
    intro g hg
    rcases List.mem_append.mp hg with hg | hg
    · exact Nat.lt_succ_of_lt (hinv.guard_past g hg)
    · simp only [List.mem_singleton] at hg
      subst hg
      exact Nat.lt_succ_self _
  excl_past := fun e he => Nat.lt_succ_of_lt (hinv.excl_past e he)
  released_past := fun r hr =>
    ⟨(hinv.released_past r hr).1, Nat.lt_succ_of_lt (hinv.released_past r hr).2⟩
  returned_past := fun r hr =>
    ⟨(hinv.returned_past r hr).1, (hinv.returned_past r hr).2.1,
      Nat.lt_succ_of_lt (hinv.returned_past r hr).2.2⟩
  guard_after_released := by
    intro g hg r hr
    rcases List.mem_append.mp hg with hg | hg
    · exact hinv.guard_after_released g hg r hr
    · simp only [List.mem_singleton] at hg
      subst hg
      exact (hinv.released_past r hr).2
  guard_after_returned := by
    intro g hg r hr
    rcases List.mem_append.mp hg with hg | hg
    · exact hinv.guard_after_returned g hg r hr
    · simp only [List.mem_singleton] at hg
      subst hg
      exact Nat.lt_trans (hinv.returned_past r hr).2.1 (hinv.returned_past r hr).2.2
  erased_absent := hinv.erased_absent
  excl_absent := hinv.excl_absent
  released_absent := hinv.released_absent
  released_unseen := by
    intro r hr hf g hg ids hids
    rcases List.mem_append.mp hg with hg | hg
    · exact hinv.released_unseen r hr hf g hg ids hids
    · simp only [List.mem_singleton] at hg
      subst hg
      cases hids

/-- The read of `collectThreadIds` preserves the invariant. -/
theorem step_inv_collectRead (σ : System) (hinv : Inv σ) (g : Nat) (t : Nat)
    (hk : σ.keepAlives[g]? = some ⟨t, none⟩) :
    Inv { σ with keepAlives := σ.keepAlives.set g ⟨t, some σ.provider.collectRead⟩,
                 now := σ.now + 1 } := by
  have hmem : (⟨t, none⟩ : KeepAlive) ∈ σ.keepAlives := List.getElem?_mem hk
  have hex : σ.exclusive = none := by
    by_contra hne
    rw [hinv.excl_no_guard hne] at hmem
    cases hmem
  exact
    { readers_eq := by simp [hinv.readers_eq]
      writer_iff := hinv.writer_iff
      excl_no_guard := fun hne => absurd hex hne
      guard_past := by
        intro g' hg'
        rcases List.mem_or_eq_of_mem_set hg' with hg' | hg'
        · exact Nat.lt_succ_of_lt (hinv.guard_past g' hg')
        · subst hg'
          exact Nat.lt_succ_of_lt (hinv.guard_past ⟨t, none⟩ hmem)
      excl_past := fun e he => Nat.lt_succ_of_lt (hinv.excl_past e he)
      released_past := fun r hr =>
        ⟨(hinv.released_past r hr).1, Nat.lt_succ_of_lt (hinv.released_past r hr).2⟩
      returned_past := fun r hr =>
        ⟨(hinv.returned_past r hr).1, (hinv.returned_past r hr).2.1,
          Nat.lt_succ_of_lt (hinv.returned_past r hr).2.2⟩
      guard_after_released := by
        intro g' hg' r hr
        rcases List.mem_or_eq_of_mem_set hg' with hg' | hg'
        · exact hinv.guard_after_released g' hg' r hr
        · subst hg'
          exact hinv.guard_after_released ⟨t, none⟩ hmem r hr
      guard_after_returned := by
        intro g' hg' r hr
        rcases List.mem_or_eq_of_mem_set hg' with hg' | hg'
        · exact hinv.guard_after_returned g' hg' r hr
        · subst hg'
          exact hinv.guard_after_returned ⟨t, none⟩ hmem r hr
      erased_absent := hinv.erased_absent
      excl_absent := hinv.excl_absent
      released_absent := hinv.released_absent
      released_unseen := by
        intro r hr hf g' hg' ids hids
        rcases List.mem_or_eq_of_mem_set hg' with hg' | hg'
        · exact hinv.released_unseen r hr hf g' hg' ids hids
        · subst hg'
          simp only [Option.some.injEq] at hids
          subst hids
          exact hinv.released_absent r hr hf }

/-- The destruction of a keep-alive preserves the invariant. -/
theorem step_inv_releaseKeepAlive (σ : System) (hinv : Inv σ) (g : Nat)
    (hg : g < σ.keepAlives.length) :
    Inv { σ with provider := σ.provider.releaseKeepAlive,
                 keepAlives := σ.keepAlives.eraseIdx g, now := σ.now + 1 } := by
  have hex : σ.exclusive = none := by
    by_contra hne
    rw [hinv.excl_no_guard hne] at hg
    exact absurd hg (Nat.not_lt_zero g)
  exact
    { readers_eq := by
        simp only [releaseKeepAlive, SharedMutex.unlock_shared, hinv.readers_eq,
          List.length_eraseIdx_of_lt hg]
      writer_iff := hinv.writer_iff
      excl_no_guard := fun hne => absurd hex hne
      guard_past := fun g' hg' =>
        Nat.lt_succ_of_lt (hinv.guard_past g' (List.mem_of_mem_eraseIdx hg'))
      excl_past := fun e he => Nat.lt_succ_of_lt (hinv.excl_past e he)
      released_past := fun r hr =>
        ⟨(hinv.released_past r hr).1, Nat.lt_succ_of_lt (hinv.released_past r hr).2⟩
      returned_past := fun r hr =>
        ⟨(hinv.returned_past r hr).1, (hinv.returned_past r hr).2.1,
          Nat.lt_succ_of_lt (hinv.returned_past r hr).2.2⟩
      guard_after_released := fun g' hg' r hr =>
        hinv.guard_after_released g' (List.mem_of_mem_eraseIdx hg') r hr
      guard_after_returned := fun g' hg' r hr =>
        hinv.guard_after_returned g' (List.mem_of_mem_eraseIdx hg') r hr
      erased_absent := hinv.erased_absent
      excl_absent := hinv.excl_absent
      released_absent := hinv.released_absent
      released_unseen := fun r hr hf g' hg' ids hids =>
        hinv.released_unseen r hr hf g' (List.mem_of_mem_eraseIdx hg') ids hids }

/-- The erase of `removeTid` preserves the invariant. -/
theorem step_inv_removeErase (σ : System) (hinv : Inv σ) (tid : pid_t) :
    Inv { σ with provider := σ.provider.removeErase tid,
                 erased := σ.erased ++ [⟨tid, false⟩], now := σ.now + 1 } where
  readers_eq := hinv.readers_eq
  writer_iff := hinv.writer_iff
  excl_no_guard := hinv.excl_no_guard
  guard_past := fun g hg => Nat.lt_succ_of_lt (hinv.guard_past g hg)
  excl_past := fun e he => Nat.lt_succ_of_lt (hinv.excl_past e he)
  released_past := fun r hr =>
    ⟨(hinv.released_past r hr).1, Nat.lt_succ_of_lt (hinv.released_past r hr).2⟩
  returned_past := fun r hr =>
    ⟨(hinv.returned_past r hr).1, (hinv.returned_past r hr).2.1,
      Nat.lt_succ_of_lt (hinv.returned_past r hr).2.2⟩
  guard_after_released := hinv.guard_after_released
  guard_after_returned := hinv.guard_after_returned
  erased_absent := by
    intro c hc hf
    rcases List.mem_append.mp hc with hc | hc
    · exact not_mem_setErase _ _ _ (hinv.erased_absent c hc hf)
    · simp only [List.mem_singleton] at hc
      subst hc
      exact not_mem_setErase_self _ _
  excl_absent := fun e he hf => not_mem_setErase _ _ _ (hinv.excl_absent e he hf)
  released_absent := fun r hr hf => not_mem_setErase _ _ _ (hinv.released_absent r hr hf)
  released_unseen := hinv.released_unseen

/-- The acquisition of the gate by `removeTid` preserves the invariant. -/
theorem step_inv_removeAcquire (σ : System) (hinv : Inv σ) (c : Nat) (call : RemoveCall)
    (hc : σ.erased[c]? = some call)
    (hr : σ.provider.threadsExitMutex_.readers = 0) :
    Inv { σ with
      provider := { σ.provider with threadsExitMutex_ :=
        { σ.provider.threadsExitMutex_ with writer := true } },
      erased := σ.erased.eraseIdx c, exclusive := some (call, σ.now),
      now := σ.now + 1 } := by
  have hnil : σ.keepAlives = [] := List.length_eq_zero.mp (by rw [← hinv.readers_eq, hr])
  exact
    { readers_eq := hinv.readers_eq
      writer_iff := by simp
      excl_no_guard := fun _ => hnil
      guard_past := fun g hg => Nat.lt_succ_of_lt (hinv.guard_past g hg)
      excl_past := by
        intro e he
        simp only [Option.some.injEq] at he
        subst he
        exact Nat.lt_succ_self _
      released_past := fun r hr' =>
        ⟨(hinv.released_past r hr').1, Nat.lt_succ_of_lt (hinv.released_past r hr').2⟩
      returned_past := fun r hr' =>
        ⟨(hinv.returned_past r hr').1, (hinv.returned_past r hr').2.1,
          Nat.lt_succ_of_lt (hinv.returned_past r hr').2.2⟩
      guard_after_released := hinv.guard_after_released
      guard_after_returned := hinv.guard_after_returned
      erased_absent := fun c' hc' hf =>
        hinv.erased_absent c' (List.mem_of_mem_eraseIdx hc') hf
      excl_absent := by
        intro e he hf
        simp only [Option.some.injEq] at he
        subst he
        exact hinv.erased_absent call (List.getElem?_mem hc) hf
      released_absent := hinv.released_absent
      released_unseen := hinv.released_unseen }

/-- The release of the gate by `removeTid` preserves the invariant. -/
theorem step_inv_removeRelease (σ : System) (hinv : Inv σ) (call : RemoveCall) (t : Nat)
    (hex : σ.exclusive = some (call, t)) :
    Inv { σ with provider := σ.provider.removeRelease, exclusive := none,
                 released := σ.released ++ [⟨call, t, σ.now⟩], now := σ.now + 1 } := by
  have hnil : σ.keepAlives = [] := hinv.excl_no_guard (by rw [hex]; simp)
  have hno : ∀ g, g ∉ σ.keepAlives := by
    intro g hg
    rw [hnil] at hg
    cases hg
  exact
    { readers_eq := hinv.readers_eq
      writer_iff := by simp [removeRelease, SharedMutex.unlock]
      excl_no_guard := fun hne => absurd rfl hne
      guard_past := fun g hg => absurd hg (hno g)
      excl_past := fun e he => by cases he
      released_past := by
        intro r hr
        rcases List.mem_append.mp hr with hr | hr
        · exact ⟨(hinv.released_past r hr).1, Nat.lt_succ_of_lt (hinv.released_past r hr).2⟩
        · simp only [List.mem_singleton] at hr
          subst hr
          exact ⟨hinv.excl_past _ hex, Nat.lt_succ_self _⟩
      returned_past := fun r hr =>
        ⟨(hinv.returned_past r hr).1, (hinv.returned_past r hr).2.1,
          Nat.lt_succ_of_lt (hinv.returned_past r hr).2.2⟩
      guard_after_released := fun g hg => absurd hg (hno g)
      guard_after_returned := fun g hg => absurd hg (hno g)
      erased_absent := hinv.erased_absent
      excl_absent := fun e he => by cases he
      released_absent := by
        intro r hr hf
        rcases List.mem_append.mp hr with hr | hr
        · exact hinv.released_absent r hr hf
        · simp only [List.mem_singleton] at hr
          subst hr
          exact hinv.excl_absent _ hex hf
      released_unseen := fun r _ _ g hg => absurd hg (hno g) }

/-- The return of `removeTid` preserves the invariant. -/
theorem step_inv_removeReturn (σ : System) (hinv : Inv σ) (c : Nat) (r : Released)
    (hc : σ.released[c]? = some r) :
    Inv { σ with released := σ.released.eraseIdx c,
                 returned := ⟨r.call, r.acquiredAt, r.releasedAt, σ.now⟩ :: σ.returned,
                 now := σ.now + 1 } := by
  have hmem : r ∈ σ.released := List.getElem?_mem hc
  exact
    { readers_eq := hinv.readers_eq
      writer_iff := hinv.writer_iff
      excl_no_guard := hinv.excl_no_guard
      guard_past := fun g hg => Nat.lt_succ_of_lt (hinv.guard_past g hg)
      excl_past := fun e he => Nat.lt_succ_of_lt (hinv.excl_past e he)
      released_past := fun r' hr' =>
        ⟨(hinv.released_past r' (List.mem_of_mem_eraseIdx hr')).1,
          Nat.lt_succ_of_lt (hinv.released_past r' (List.mem_of_mem_eraseIdx hr')).2⟩
      returned_past := by
        intro r' hr'
        rcases List.mem_cons.mp hr' with hr' | hr'
        · subst hr'
          exact ⟨(hinv.released_past r hmem).1, (hinv.released_past r hmem).2,
            Nat.lt_succ_self _⟩
        · exact ⟨(hinv.returned_past r' hr').1, (hinv.returned_past r' hr').2.1,
            Nat.lt_succ_of_lt (hinv.returned_past r' hr').2.2⟩
      guard_after_released := fun g hg r' hr' =>
        hinv.guard_after_released g hg r' (List.mem_of_mem_eraseIdx hr')
      guard_after_returned := by
        intro g hg r' hr'
        rcases List.mem_cons.mp hr' with hr' | hr'
        · subst hr'
          exact hinv.guard_after_released g hg r hmem
        · exact hinv.guard_after_returned g hg r' hr'
      erased_absent := hinv.erased_absent
      excl_absent := hinv.excl_absent
      released_absent := fun r' hr' hf =>
        hinv.released_absent r' (List.mem_of_mem_eraseIdx hr') hf
      released_unseen := fun r' hr' hf =>
        hinv.released_unseen r' (List.mem_of_mem_eraseIdx hr') hf }

/-- Every atomic step preserves the invariant. -/
theorem step_inv (σ σ' : System) (st : Step) (hinv : Inv σ) (h : step σ st = some σ') :
    Inv σ' := by
  cases st with
  | addTid tid =>
    simp only [step, Option.some.injEq] at h
    subst h
    exact step_inv_addTid σ tid hinv
  | collectAcquire =>
    simp only [step] at h
    cases hp : σ.provider.collectAcquire with
    | none => simp [hp] at h
    | some p =>
      simp only [hp, Option.some.injEq] at h
      subst h
      obtain ⟨hw, rfl⟩ := collectAcquire_some _ _ hp
      exact step_inv_collectAcquire σ hinv hw
  | collectRead g =>
    simp only [step] at h
    cases hk : σ.keepAlives[g]? with
    | none => simp [hk] at h
    | some ka =>
      obtain ⟨t, ids⟩ := ka
      cases ids with
      | some ids => simp [hk] at h
      | none =>
        simp only [hk, Option.some.injEq] at h
        subst h
        exact step_inv_collectRead σ hinv g t hk
  | releaseKeepAlive g =>
    simp only [step] at h
    by_cases hg : g < σ.keepAlives.length
    · rw [if_pos hg] at h
      simp only [Option.some.injEq] at h
      subst h
      exact step_inv_releaseKeepAlive σ hinv g hg
    · rw [if_neg hg] at h
      cases h
  | removeErase tid =>
    simp only [step, Option.some.injEq] at h
    subst h
    exact step_inv_removeErase σ hinv tid
  | removeAcquire c =>
    simp only [step] at h
    cases hc : σ.erased[c]? with
    | none => simp [hc] at h
    | some call =>
      cases hp : σ.provider.removeAcquire with
      | none => simp [hc, hp] at h
      | some p =>
        simp only [hc, hp, Option.some.injEq] at h
        subst h
        obtain ⟨_, hr, rfl⟩ := removeAcquire_some _ _ hp
        exact step_inv_removeAcquire σ hinv c call hc hr
  | removeRelease =>
    simp only [step] at h
    cases hex : σ.exclusive with
    | none => simp [hex] at h
    | some e =>
      obtain ⟨call, t⟩ := e
      simp only [hex, Option.some.injEq] at h
      subst h
      exact step_inv_removeRelease σ hinv call t hex
  | removeReturn c =>
    simp only [step] at h
    cases hc : σ.released[c]? with
    | none => simp [hc] at h
    | some r =>
      simp only [hc, Option.some.injEq] at h
      subst h
      exact step_inv_removeReturn σ hinv c r hc

theorem exec_inv (steps : List Step) (σ σ' : System) (hinv : Inv σ)
    (h : exec steps σ = some σ') : Inv σ' := by
  induction steps generalizing σ with
  | nil =>
    simp only [exec, Option.some.injEq] at h
    subst h
    exact hinv
  | cons st steps ih =>
    unfold exec at h
    cases hs : step σ st with
    | none => rw [hs] at h; cases h
    | some σ1 =>
      rw [hs] at h
      exact ih σ1 (step_inv σ σ1 st hinv hs) h

/-- C9 as stated fails: `removeTid(7)` erases, acquires the gate at step 2 and releases it at
step 3; a keep-alive is acquired at step 4, and when the call returns at step 6 that
keep-alive, acquired before the return, is in existence.  With `addTid(7)` made again before
the keep-alive reads the id set, the list it holds at the return contains 7. -/
theorem keepAlive_acquired_before_return_is_held :
    exec [.addTid 7, .removeErase 7, .removeAcquire 0, .removeRelease, .collectAcquire,
        .collectRead 0, .removeReturn 0] System.init =
      some ⟨⟨[], ⟨1, false⟩⟩, [⟨4, some []⟩], [], none, [], 7, [⟨⟨7, false⟩, 2, 3, 6⟩]⟩ ∧
    (∃ g ∈ (⟨⟨[], ⟨1, false⟩⟩, [⟨4, some []⟩], [], none, [], 7,
          [⟨⟨7, false⟩, 2, 3, 6⟩]⟩ : System).keepAlives,
      ∃ r ∈ (⟨⟨[], ⟨1, false⟩⟩, [⟨4, some []⟩], [], none, [], 7,
          [⟨⟨7, false⟩, 2, 3, 6⟩]⟩ : System).returned,
        g.acquiredAt < r.returnedAt) ∧
    exec [.addTid 7, .removeErase 7, .removeAcquire 0, .removeRelease, .addTid 7,
        .collectAcquire, .collectRead 0, .removeReturn 0] System.init =
      some ⟨⟨[7], ⟨1, false⟩⟩, [⟨5, some [7]⟩], [], none, [], 8, [⟨⟨7, true⟩, 2, 3, 7⟩]⟩ ∧
    (∃ g ∈ (⟨⟨[7], ⟨1, false⟩⟩, [⟨5, some [7]⟩], [], none, [], 8,
          [⟨⟨7, true⟩, 2, 3, 7⟩]⟩ : System).keepAlives,
      ∃ r ∈ (⟨⟨[7], ⟨1, false⟩⟩, [⟨5, some [7]⟩], [], none, [], 8,
          [⟨⟨7, true⟩, 2, 3, 7⟩]⟩ : System).returned,
        g.acquiredAt < r.returnedAt ∧ g.ids = some [7] ∧ r.call.tid = 7) := by
  decide

/-- C9 (amended): in every state reachable by atomic steps (the release of the gate and the
return of `removeTid` being two steps), `removeTid` acquires and releases the gate only while
no keep-alive exists, so every keep-alive in existence was acquired after the release of the
gate by every `removeTid` call that has returned, and at the return of a call every
keep-alive was acquired after that call's release; at the return of `removeTid(id)` no
keep-alive's captured list contains `id`, unless `addTid(id)` was made after that call's
erase. -/
theorem keepAlives_at_return_acquired_after_release (steps : List Step) (σ : System)
    (hreach : exec steps System.init = some σ) :
    (∀ g ∈ σ.keepAlives, ∀ r ∈ σ.returned,
      r.acquiredAt < r.releasedAt ∧ r.releasedAt < r.returnedAt ∧
        r.releasedAt < g.acquiredAt) ∧
    (∀ c σ', step σ (.removeReturn c) = some σ' →
      ∃ r, σ.released[c]? = some r ∧
        σ'.returned = ⟨r.call, r.acquiredAt, r.releasedAt, σ.now⟩ :: σ.returned ∧
        σ'.keepAlives = σ.keepAlives ∧
        (∀ g ∈ σ.keepAlives, r.acquiredAt < r.releasedAt ∧ r.releasedAt < g.acquiredAt) ∧
        (r.call.readded = false →
          ∀ g ∈ σ.keepAlives, ∀ ids, g.ids = some ids → r.call.tid ∉ ids)) ∧
    (σ.keepAlives ≠ [] → ∀ c, step σ (.removeAcquire c) = none) ∧
    (∀ σ', step σ .removeRelease = some σ' → σ.keepAlives = [] ∧ σ'.keepAlives = []) := by
  have hinv := exec_inv steps _ σ inv_init hreach
  refine ⟨?_, ?_, ?_, ?_⟩
  · intro g hg r hr
    exact ⟨(hinv.returned_past r hr).1, (hinv.returned_past r hr).2.1,
      hinv.guard_after_returned g hg r hr⟩
  · intro c σ' hstep
    simp only [step] at hstep
    cases hc : σ.released[c]? with
    | none => simp [hc] at hstep
    | some r =>
      simp only [hc, Option.some.injEq] at hstep
      subst hstep
      have hmem : r ∈ σ.released := List.getElem?_mem hc
      refine ⟨r, rfl, rfl, rfl, ?_, ?_⟩
      · intro g hg
        exact ⟨(hinv.released_past r hmem).1, hinv.guard_after_released g hg r hmem⟩
      · intro hf g hg ids hids
        exact hinv.released_unseen r hmem hf g hg ids hids
  · intro hne c
    have hr : σ.provider.threadsExitMutex_.readers ≠ 0 := by
      rw [hinv.readers_eq]
      exact fun h0 => hne (List.length_eq_zero.mp h0)
    simp only [step, removeAcquire, SharedMutex.lock, hr, if_false]
    cases σ.erased[c]? <;> simp
  · intro σ' hstep
    simp only [step] at hstep
    cases hex : σ.exclusive with
    | none => simp [hex] at hstep
    | some e =>
      obtain ⟨call, t⟩ := e
      simp only [hex, Option.some.injEq] at hstep
      subst hstep
      have hnil : σ.keepAlives = [] := hinv.excl_no_guard (by rw [hex]; simp)
      exact ⟨hnil, hnil⟩

/-- C9 (amended), the scenario of the specification: with the keep-alive of the first
snapshot in existence `removeTid(7)` cannot acquire the gate; once it is destroyed the call
acquires the gate (step 5), releases it (step 6) and returns (step 7), and the keep-alive of
a fresh snapshot, acquired at step 8, holds an id list without 7. -/
theorem keepAlives_at_return_acquired_after_release_witness :
    exec [.addTid 7, .collectAcquire, .collectRead 0, .removeErase 7, .removeAcquire 0]
      System.init = none ∧
    exec [.addTid 7, .collectAcquire, .collectRead 0, .removeErase 7, .releaseKeepAlive 0,
        .removeAcquire 0, .removeRelease, .removeReturn 0, .collectAcquire, .collectRead 0]
        System.init =
      some ⟨⟨[], ⟨1, false⟩⟩, [⟨8, some []⟩], [], none, [], 10, [⟨⟨7, false⟩, 5, 6, 7⟩]⟩ ∧
    ∀ g ∈ (⟨⟨[], ⟨1, false⟩⟩, [⟨8, some []⟩], [], none, [], 10,
        [⟨⟨7, false⟩, 5, 6, 7⟩]⟩ : System).keepAlives,
      ∀ r ∈ (⟨⟨[], ⟨1, false⟩⟩, [⟨8, some []⟩], [], none, [], 10,
          [⟨⟨7, false⟩, 5, 6, 7⟩]⟩ : System).returned,
        r.acquiredAt < r.releasedAt ∧ r.releasedAt < r.returnedAt ∧
          r.releasedAt < g.acquiredAt :=
  ⟨by decide, by decide,
    (keepAlives_at_return_acquired_after_release
      [.addTid 7, .collectAcquire, .collectRead 0, .removeErase 7, .releaseKeepAlive 0,
        .removeAcquire 0, .removeRelease, .removeReturn 0, .collectAcquire, .collectRead 0]
      ⟨⟨[], ⟨1, false⟩⟩, [⟨8, some []⟩], [], none, [], 10, [⟨⟨7, false⟩, 5, 6, 7⟩]⟩
      (by decide)).1⟩

end ThreadIdWorkerProvider

/-! ## Properties of the observer factory -/

namespace QueueObserverFactory

variable {F P : Type}

/-- C13: `QueueObserverFactory::make` returns the empty result when no factory is registered
and, when one is registered, exactly what that factory returns for the same context, number
of priorities and worker provider, empty or not; being a total function, it has no failure of
its own. -/
theorem make_delegates_or_empty (context : String) (numPriorities : Nat)
    (workerProvider : P) :
    make (F := F) none context numPriorities workerProvider = none ∧
    (∀ g : FactoryFn F P,
      make (some g) context numPriorities workerProvider =
        g context numPriorities workerProvider) ∧
    (∀ slot : Option (FactoryFn F P),
      make slot context numPriorities workerProvider = none ∨
      ∃ g observer, slot = some g ∧ g context numPriorities workerProvider = some observer ∧
        make slot context numPriorities workerProvider = some observer) := by
  refine ⟨rfl, fun _ => rfl, ?_⟩
  intro slot
  cases slot with
  | none => exact Or.inl rfl
  | some g =>
    cases hg : g context numPriorities workerProvider with
    | none => exact Or.inl hg
    | some observer => exact Or.inr ⟨g, observer, rfl, hg, hg⟩

/-- The scenario of the specification: with no factory registered, `make("ctx", 4, registry)`
is empty; with a factory registered for the context "ctx" only, `make` is what it says. -/
theorem make_scenario :
    make (F := Nat) (P := Unit) none "ctx" 4 () = none ∧
    make (F := Nat) (P := Unit)
      (some (fun c n _ => if c = "ctx" then some n else none)) "ctx" 4 () = some 4 ∧
    make (F := Nat) (P := Unit)
      (some (fun c n _ => if c = "ctx" then some n else none)) "other" 4 () = none := by
  decide

end QueueObserverFactory

end folly
